import Mathlib

/-
Verification of the daily portfolio-sizing and rebalancing engine of the
AI-Hedge-Fund repository.

Shallow embedding conventions:
* Python `float` arithmetic is modelled exactly by `ℚ`; float literals such as
  `0.05`, `1e-6`, `1e-8`, `1e-9` are modelled by the rationals they denote.
* Python `dict`s (portfolio, prices, target weights, decisions) are modelled by
  association lists `List (String × _)` in insertion order; `d.get(k, v)` is
  `dget`/`pget`/`qtyOf`-style lookups with defaults, `d[k] = v` is `dictInsert`
  (replace the existing binding in place, else append), `del d[k]` inside the
  cleanup loops is `List.filter`, and `k in d` is a key-membership test.
* Python `int(x)` truncates toward zero (`pyTrunc`), `x // y` on floats is
  `⌊x / y⌋`, `math.ceil` is `⌈·⌉`.
* `list.sort(key=…, reverse=True)` is the stable descending sort `sortByDescQ`.
* Functions that can raise are modelled with `Option`/`Except`
  (`np.linalg.inv` raises `LinAlgError` on a singular matrix: `inv1`;
  the optimizer's covariance-shape `ValueError`: `Except.error`).
* `np.linalg.pinv` is external NumPy code, not code of this repository.  Where
  a function is analysed for arbitrary dimension (`mean_variance_optimize`),
  the matrix returned by that external call is taken as an input (`pinv_cov`).
  The two Black-Litterman routines are embedded at the single-asset instance
  (all matrices 1×1), where the Moore-Penrose pseudo-inverse is exactly
  `pinv1 a = if a = 0 then 0 else a⁻¹` and a diagonal Ω is a list of its
  diagonal entries; this instance is faithful to the numpy code at n = 1.
-/

namespace HedgeFund

/-- One holding of the portfolio dict:
`{"totalAmount": int, "last_price": float, "entry_price": float}`. -/
structure Holding where
  totalAmount : Int
  last_price : ℚ
  entry_price : ℚ
  deriving Repr, DecidableEq

/-- A portfolio snapshot: `{"portfolio": {...}, "cash": float}`. -/
structure Snapshot where
  portfolio : List (String × Holding)
  cash : ℚ
  deriving Repr, DecidableEq

/-- A price map `ticker -> close price`. -/
abbrev Prices := List (String × ℚ)

/-- First binding of key `t`, i.e. the Python dict lookup `m[t]`. -/
def dfind {α : Type} (t : String) : List (String × α) → Option α
  | [] => none
  | e :: rest => if e.1 = t then some e.2 else dfind t rest

/-- Python `m.get(t, d)`. -/
def dget {α : Type} (m : List (String × α)) (t : String) (d : α) : α :=
  (dfind t m).getD d

/-- Python `m[t] = v`: replace the existing binding in place, else append. -/
def dictInsert {α : Type} (t : String) (v : α) : List (String × α) → List (String × α)
  | [] => [(t, v)]
  | e :: rest => if e.1 = t then (t, v) :: rest else e :: dictInsert t v rest

/-- The key list of an association list (Python `dict.keys()`). -/
def keysOf {α : Type} (m : List (String × α)) : List String :=
  m.map Prod.fst

/-- `snapshot["portfolio"].get(t, {}).get("totalAmount", 0)`. -/
def qtyOf (p : List (String × Holding)) (t : String) : Int :=
  match dfind t p with
  | some h => h.totalAmount
  | none => 0

/-- `snapshot["portfolio"].get(t, {}).get("last_price", 0.0)`. -/
def lastOf (p : List (String × Holding)) (t : String) : ℚ :=
  match dfind t p with
  | some h => h.last_price
  | none => 0

/-- `snapshot["portfolio"].get(t, {}).get("entry_price", 0.0)`. -/
def entryOf (p : List (String × Holding)) (t : String) : ℚ :=
  match dfind t p with
  | some h => h.entry_price
  | none => 0

/-- `prices.get(t, d)`. -/
def pget (prices : Prices) (t : String) (d : ℚ) : ℚ :=
  (dfind t prices).getD d

/-- Remove the first binding of key `t` (proof device for summing a
duplicate-free association list one key at a time). -/
def eraseKey {α : Type} (t : String) : List (String × α) → List (String × α)
  | [] => []
  | e :: rest => if e.1 = t then rest else e :: eraseKey t rest

/-- Python `int(x)` on a float: truncation toward zero. -/
def pyTrunc (q : ℚ) : Int :=
  if q < 0 then ⌈q⌉ else ⌊q⌋

/-- Stable insertion (descending by `key`) used by `sortByDescQ`. -/
def insertDescQ {α : Type} (key : α → ℚ) (a : α) : List α → List α
  | [] => [a]
  | b :: l => if key b ≤ key a then a :: b :: l else b :: insertDescQ key a l

/-- Python `list.sort(key=…, reverse=True)`: stable sort, descending by `key`. -/
def sortByDescQ {α : Type} (key : α → ℚ) : List α → List α
  | [] => []
  | a :: l => insertDescQ key a (sortByDescQ key l)

/-! ## src/testing/mvo/portfolio.py -/

/-- `compute_market_value` (portfolio.py lines 18-25): Σ qty·last_price. -/
def compute_market_value (s : Snapshot) : ℚ :=
  (s.portfolio.map (fun e => (e.2.totalAmount : ℚ) * e.2.last_price)).sum

/-- `update_snapshot_prices` (portfolio.py lines 28-41): rewrite `last_price`
from the price map where present.  The derived aggregate fields
(`portfolio_value`, `net_liquidation`, `liquid`, `buying_power`) are recomputable
from the snapshot and are not stored in the model. -/
def update_snapshot_prices (s : Snapshot) (prices : Prices) : Snapshot :=
  { portfolio :=
      s.portfolio.map (fun e =>
        (e.1, { totalAmount := e.2.totalAmount,
                last_price := pget prices e.1 e.2.last_price,
                entry_price := e.2.entry_price })),
    cash := s.cash }

/-- Value of a holdings list at the price map, falling back to each entry's
stored `last_price` where the map has no entry — exactly what
`compute_market_value ∘ update_snapshot_prices` computes. -/
def pval (prices : Prices) (pf : List (String × Holding)) : ℚ :=
  (pf.map (fun e => (e.2.totalAmount : ℚ) * pget prices e.1 e.2.last_price)).sum

/-- Total equity `cash + Σ qty·price` of a snapshot at a price map. -/
def equityAt (prices : Prices) (s : Snapshot) : ℚ :=
  s.cash + pval prices s.portfolio

/-- Contribution of ticker `t` of portfolio `P0` to `pval prices P0`
(0 when `t` is not held). -/
def contrib (P0 : List (String × Holding)) (prices : Prices) (t : String) : ℚ :=
  match dfind t P0 with
  | some h => (h.totalAmount : ℚ) * pget prices t h.last_price
  | none => 0

/-- State threaded through the ticker loop of `apply_target_weights`. -/
structure AtwState where
  np : List (String × Holding)
  cash : ℚ
  changes : List (String × Int × Int)
  deriving Repr, DecidableEq

/-- Body of the `for ticker, td in zip(tickers, target_dollars)` loop of
`apply_target_weights` (portfolio.py lines 81-117). -/
def atw_step (P0 : List (String × Holding)) (prices : Prices)
    (st : AtwState) (p : String × ℚ) : AtwState :=
  let t := p.1
  let td := p.2
  let price := pget prices t 0
  if price ≤ 0 then
    let prev_qty := qtyOf P0 t
    if 0 < prev_qty then
      let kept : Holding :=
        { totalAmount := prev_qty,
          last_price := if 0 < price then price else lastOf P0 t,
          entry_price := entryOf P0 t }
      { st with np := dictInsert t kept st.np }
    else st
  else
    let target_qty := ⌊td / price⌋
    let prev_qty := qtyOf P0 t
    let delta_qty := target_qty - prev_qty
    let cash := st.cash - (delta_qty : ℚ) * price
    let np :=
      if 0 < target_qty then
        let prev_entry := entryOf P0 t
        let new_entry :=
          if 0 < delta_qty ∧ 0 < prev_qty then
            ((prev_qty : ℚ) * prev_entry + (delta_qty : ℚ) * price) / ((prev_qty : ℚ) + (delta_qty : ℚ))
          else if 0 < delta_qty ∧ prev_qty = 0 then price
          else prev_entry
        dictInsert t
          ({ totalAmount := target_qty, last_price := price, entry_price := new_entry } : Holding)
          st.np
      else st.np
    let changes :=
      if prev_qty ≠ target_qty then st.changes ++ [(t, prev_qty, target_qty)] else st.changes
    { np := np, cash := cash, changes := changes }

/-- `apply_target_weights` (portfolio.py lines 58-134). -/
def apply_target_weights (snapshot_prev : Snapshot) (tickers : List String)
    (prices : Prices) (target_weights : List ℚ) : Snapshot × List (String × Int × Int) :=
  let portfolio_prev := snapshot_prev.portfolio
  let cash_prev := snapshot_prev.cash
  let temp := update_snapshot_prices { portfolio := portfolio_prev, cash := cash_prev } prices
  let market_value := compute_market_value temp
  let total_equity := market_value + cash_prev
  let target_dollars := target_weights.map (fun w => max 0 w * total_equity)
  let st := (tickers.zip target_dollars).foldl (atw_step portfolio_prev prices)
    { np := [], cash := cash_prev, changes := [] }
  let np := portfolio_prev.foldl
    (fun acc e =>
      if e.1 ∉ keysOf acc ∧ dfind e.1 prices = none then dictInsert e.1 e.2 acc else acc)
    st.np
  let new_snapshot := update_snapshot_prices { portfolio := np, cash := st.cash } prices
  (new_snapshot, st.changes)

/-- `initial_total_equity` of `apply_partial_target_weights`
(portfolio.py lines 146-149). -/
def pap_initial_equity (s : Snapshot) (prices : Prices) : ℚ :=
  let temp := update_snapshot_prices s prices
  compute_market_value temp + temp.cash

/-- Subset market value of the rebalanced tickers
(portfolio.py lines 152-157). -/
def pap_subset_value (s : Snapshot) (prices : Prices) (pw : List (String × ℚ)) : ℚ :=
  let temp := update_snapshot_prices s prices
  (pw.map (fun e =>
    (qtyOf temp.portfolio e.1 : ℚ) * pget prices e.1 (lastOf temp.portfolio e.1))).sum

/-- Per-ticker whole-share targets of the partial rebalance
(portfolio.py lines 159-174): per-name dollar targets capped at 5% of total
portfolio equity, divided by price (held quantity when the price is not
positive). -/
def pap_target_qty (s : Snapshot) (prices : Prices) (pw : List (String × ℚ)) :
    List (String × Int) :=
  let temp := update_snapshot_prices s prices
  let total_equity := pap_subset_value s prices pw + s.cash
  let per_name_cap := (5 / 100) * (compute_market_value temp + s.cash)
  pw.map (fun e =>
    let dollars := min (max 0 e.2 * total_equity) per_name_cap
    let px := pget prices e.1 (lastOf s.portfolio e.1)
    (e.1, if px ≤ 0 then qtyOf s.portfolio e.1 else ⌊dollars / px⌋))

/-- Cash after the sell-down pass (portfolio.py lines 176-184).  Note the pass
credits cash only; it does not touch the portfolio dict. -/
def pap_cash_after_sells (s : Snapshot) (prices : Prices) (pw : List (String × ℚ)) : ℚ :=
  (pap_target_qty s prices pw).foldl
    (fun c e =>
      let prev_q := qtyOf s.portfolio e.1
      let px := pget prices e.1 (lastOf s.portfolio e.1)
      if e.2 < prev_q then c + ((prev_q - e.2 : Int) : ℚ) * px else c)
    s.cash

/-- Changes recorded by the sell-down pass (portfolio.py line 184). -/
def pap_sell_changes (s : Snapshot) (prices : Prices) (pw : List (String × ℚ)) :
    List (String × Int × Int) :=
  (pap_target_qty s prices pw).filterMap
    (fun e =>
      let prev_q := qtyOf s.portfolio e.1
      if e.2 < prev_q then some (e.1, prev_q, e.2) else none)

/-- A pending buy request `(t, need_q, px, cost)` (portfolio.py lines 186-194). -/
structure BuyReq where
  t : String
  need_q : Int
  px : ℚ
  cost : ℚ
  deriving Repr, DecidableEq

/-- The pending buy requests of the partial rebalance. -/
def pap_buy_reqs (s : Snapshot) (prices : Prices) (pw : List (String × ℚ)) : List BuyReq :=
  (pap_target_qty s prices pw).filterMap
    (fun e =>
      let prev_q := qtyOf s.portfolio e.1
      if prev_q < e.2 then
        let px := pget prices e.1 (lastOf s.portfolio e.1)
        some { t := e.1, need_q := e.2 - prev_q, px := px, cost := ((e.2 - prev_q : Int) : ℚ) * px }
      else none)

/-- Total requested buy cost (portfolio.py line 196). -/
def pap_total_cost (s : Snapshot) (prices : Prices) (pw : List (String × ℚ)) : ℚ :=
  ((pap_buy_reqs s prices pw).map BuyReq.cost).sum

/-- `allowable_budget = min(cash, 0.05 * total_portfolio_equity)`
(portfolio.py line 199). -/
def pap_allowable_budget (s : Snapshot) (prices : Prices) (pw : List (String × ℚ)) : ℚ :=
  let temp := update_snapshot_prices s prices
  min (pap_cash_after_sells s prices pw) ((5 / 100) * (compute_market_value temp + s.cash))

/-- The uniform buy scale (portfolio.py lines 197-201). -/
def pap_scale (s : Snapshot) (prices : Prices) (pw : List (String × ℚ)) : ℚ :=
  let tc := pap_total_cost s prices pw
  let ab := pap_allowable_budget s prices pw
  if ab < tc ∧ 0 < tc then ab / tc else 1

/-- State threaded through the buy-application loop. -/
structure BuyState where
  np : List (String × Holding)
  cash : ℚ
  changes : List (String × Int × Int)
  applied : List (String × Int × ℚ)
  deriving Repr, DecidableEq

/-- Body of the buy-application loop (portfolio.py lines 206-224). -/
def pap_buy_step (scale : ℚ) (st : BuyState) (r : BuyReq) : BuyState :=
  let buy_q := pyTrunc ((r.need_q : ℚ) * scale)
  if buy_q ≤ 0 then st
  else
    let prev_q := qtyOf st.np r.t
    let new_q := prev_q + buy_q
    let prev_entry := entryOf st.np r.t
    let new_entry :=
      if 0 < prev_q then ((prev_q : ℚ) * prev_entry + (buy_q : ℚ) * r.px) / (new_q : ℚ)
      else r.px
    { np := dictInsert r.t
        ({ totalAmount := new_q, last_price := r.px, entry_price := new_entry } : Holding) st.np,
      cash := st.cash - (buy_q : ℚ) * r.px,
      changes := st.changes ++ [(r.t, prev_q, new_q)],
      applied := st.applied ++ [(r.t, buy_q, r.px)] }

/-- State after the scaled-buy pass of `apply_partial_target_weights`
(portfolio.py lines 204-224); the buys run on a fresh copy of the previous
portfolio. -/
def pap_after_buys (s : Snapshot) (prices : Prices) (pw : List (String × ℚ)) : BuyState :=
  (pap_buy_reqs s prices pw).foldl (pap_buy_step (pap_scale s prices pw))
    { np := s.portfolio,
      cash := pap_cash_after_sells s prices pw,
      changes := pap_sell_changes s prices pw,
      applied := [] }

/-- The `while bq > 0 and cash < 0` inner unwind loop
(portfolio.py lines 234-246), recursing on the remaining unwindable shares. -/
def unwind_shares (t : String) (px : ℚ) :
    Nat → List (String × Holding) × ℚ → List (String × Holding) × ℚ
  | 0, st => st
  | Nat.succ n, st =>
    if st.2 < 0 then
      let prev_q := qtyOf st.1 t
      if prev_q ≤ 0 then st
      else
        unwind_shares t px n
          (dictInsert t
            ({ totalAmount := prev_q - 1, last_price := px, entry_price := entryOf st.1 t } : Holding)
            st.1,
           st.2 + px)
    else st

/-- One applied buy of the outer unwind loop (portfolio.py lines 230-246);
`if cash >= 0: break` is the leading guard. -/
def pap_unwind_step (st : List (String × Holding) × ℚ) (b : String × Int × ℚ) :
    List (String × Holding) × ℚ :=
  if 0 ≤ st.2 then st else unwind_shares b.1 b.2.2 b.2.1.toNat st

/-- Portfolio and cash after the buy-unwind guard
(portfolio.py lines 226-250): unwind recent buys largest notional first, one
share at a time, then drop positions at 0. -/
def pap_after_unwind (s : Snapshot) (prices : Prices) (pw : List (String × ℚ)) :
    List (String × Holding) × ℚ :=
  let bs := pap_after_buys s prices pw
  if bs.cash < 0 ∧ bs.applied ≠ [] then
    let sorted := sortByDescQ (fun b => (b.2.1 : ℚ) * b.2.2) bs.applied
    let res := sorted.foldl pap_unwind_step (bs.np, bs.cash)
    (res.1.filter (fun e => 0 < e.2.totalAmount), res.2)
  else (bs.np, bs.cash)

/-- A sell candidate `(ticker, qty, px, market value)` of the emergency pass. -/
structure SellCand where
  t : String
  qty : Int
  px : ℚ
  mv : ℚ
  deriving Repr, DecidableEq

/-- Sell candidates: positively held, positively priced positions
(portfolio.py lines 257-265 and 313-321). -/
def sell_candidates (prices : Prices) (np : List (String × Holding)) : List SellCand :=
  np.filterMap (fun e =>
    if e.2.totalAmount ≤ 0 then none
    else
      let px := pget prices e.1 e.2.last_price
      if px ≤ 0 then none
      else some { t := e.1, qty := e.2.totalAmount, px := px, mv := (e.2.totalAmount : ℚ) * px })

/-- One emergency sell (portfolio.py lines 268-284 and 323-336): sell
`min(qty, ceil(shortfall / px))` shares of the candidate, largest market value
first. -/
def emergency_step
    (st : List (String × Holding) × ℚ × ℚ × List (String × Int × Int)) (c : SellCand) :
    List (String × Holding) × ℚ × ℚ × List (String × Int × Int) :=
  if st.2.2.1 ≤ 0 then st
  else
    let sell_qty := min c.qty ⌈st.2.2.1 / c.px⌉
    if sell_qty ≤ 0 then st
    else
      let prev_q := qtyOf st.1 c.t
      let new_q := prev_q - sell_qty
      (dictInsert c.t
        ({ totalAmount := new_q, last_price := c.px, entry_price := entryOf st.1 c.t } : Holding)
        st.1,
       st.2.1 + (sell_qty : ℚ) * c.px,
       max 0 (st.2.2.1 - (sell_qty : ℚ) * c.px),
       st.2.2.2 ++ [(c.t, prev_q, new_q)])

/-- The emergency sell pass shared by `apply_partial_target_weights`
(portfolio.py lines 254-288) and `force_cash_non_negative`
(portfolio.py lines 311-339): returns the portfolio (positions at 0 dropped),
the cash after the sells, and the recorded changes. -/
def emergency_sells (prices : Prices) (np : List (String × Holding)) (cash : ℚ) :
    List (String × Holding) × ℚ × List (String × Int × Int) :=
  let sorted := sortByDescQ SellCand.mv (sell_candidates prices np)
  let res := sorted.foldl emergency_step (np, cash, -cash, [])
  (res.1.filter (fun e => 0 < e.2.totalAmount), res.2.1, res.2.2.2)

/-- Portfolio, cash and change log of `apply_partial_target_weights` right
before the final equity guard (portfolio.py lines 143-288): sells, scaled
buys, the buy-unwind guard, and the emergency-sell pass when cash is still
negative. -/
def pap_pre_correction (s : Snapshot) (prices : Prices) (pw : List (String × ℚ)) :
    List (String × Holding) × ℚ × List (String × Int × Int) :=
  let bs := pap_after_buys s prices pw
  let u := pap_after_unwind s prices pw
  if u.2 < 0 then
    let r := emergency_sells prices u.1 u.2
    (r.1, r.2.1, bs.changes ++ r.2.2)
  else (u.1, u.2, bs.changes)

/-- `apply_partial_target_weights` (portfolio.py lines 137-301). -/
def apply_partial_target_weights (s : Snapshot) (prices : Prices)
    (partial_weights : List (String × ℚ)) : Snapshot × List (String × Int × Int) :=
  let res := pap_pre_correction s prices partial_weights
  let ns := update_snapshot_prices { portfolio := res.1, cash := res.2.1 } prices
  let after_equity := compute_market_value ns + ns.cash
  let delta := pap_initial_equity s prices - after_equity
  if 1 / 1000000 < |delta| then ({ ns with cash := ns.cash + delta }, res.2.2)
  else (ns, res.2.2)

/-- `force_cash_non_negative` (portfolio.py lines 303-341). -/
def force_cash_non_negative (s : Snapshot) (prices : Prices) : Snapshot :=
  if 0 ≤ s.cash then update_snapshot_prices s prices
  else
    let r := emergency_sells prices s.portfolio s.cash
    update_snapshot_prices { portfolio := r.1, cash := max 0 r.2.1 } prices

/-! ## src/testing/mvo/optimizer.py -/

namespace Optimizer

/-- Dot product of two rational vectors. -/
def dotQ (xs ys : List ℚ) : ℚ :=
  ((xs.zip ys).map (fun p => p.1 * p.2)).sum

/-- Matrix-vector product `m @ v` for a row-major rational matrix. -/
def matVec (m : List (List ℚ)) (v : List ℚ) : List ℚ :=
  m.map (fun row => dotQ row v)

/-- `raw_weights = (1.0 / risk_aversion) * inv_cov @ expected_returns`
(optimizer.py line 24), with `pinv_cov` the matrix returned by the external
`np.linalg.pinv(covariance)` call. -/
def mvo_raw (expected_returns : List ℚ) (pinv_cov : List (List ℚ)) (risk_aversion : ℚ) :
    List ℚ :=
  (matVec pinv_cov expected_returns).map (fun x => 1 / risk_aversion * x)

/-- `np.maximum(raw_weights, 0.0)` (optimizer.py line 27). -/
def mvo_clipped (expected_returns : List ℚ) (pinv_cov : List (List ℚ)) (risk_aversion : ℚ) :
    List ℚ :=
  (mvo_raw expected_returns pinv_cov risk_aversion).map (fun x => max x 0)

/-- Weight construction of `mean_variance_optimize` (optimizer.py lines 24-35):
clip (when long-only), renormalize to sum 1, equal-weight fallback when no
positive weight remains. -/
def mvo_weights (expected_returns : List ℚ) (pinv_cov : List (List ℚ))
    (risk_aversion : ℚ) (long_only : Bool) : List ℚ :=
  let raw :=
    if long_only then mvo_clipped expected_returns pinv_cov risk_aversion
    else mvo_raw expected_returns pinv_cov risk_aversion
  let s := raw.sum
  if 0 < s then raw.map (fun x => x / s)
  else List.replicate expected_returns.length (1 / (expected_returns.length : ℚ))

/-- `mean_variance_optimize` (optimizer.py lines 5-35): raises `ValueError` on a
covariance shape mismatch, otherwise returns the weights.  `np.linalg.pinv`
never raises here (the `except` fallback of lines 21-22 is for an SVD
convergence failure of the external routine, which the model's exact
pseudo-inverse oracle does not exhibit). -/
def mean_variance_optimize (expected_returns : List ℚ) (covariance : List (List ℚ))
    (pinv_cov : List (List ℚ)) (risk_aversion : ℚ) (long_only : Bool) :
    Except String (List ℚ) :=
  let n := expected_returns.length
  if covariance.length = n ∧ ∀ row ∈ covariance, row.length = n then
    Except.ok (mvo_weights expected_returns pinv_cov risk_aversion long_only)
  else Except.error "Covariance shape mismatch"

/-- Moore-Penrose pseudo-inverse of the 1×1 matrix `[a]` (exact semantics of
`np.linalg.pinv` at this size): invert when nonzero, else 0. -/
def pinv1 (a : ℚ) : ℚ :=
  if a = 0 then 0 else a⁻¹

/-- `black_litterman` (optimizer.py lines 38-62) at the single-asset instance:
covariance and market weight are scalars, `P` is the K×1 picking matrix as a
list of scalars, `Q` the view vector, and `Omega` a diagonal K×K uncertainty
matrix given by its diagonal (the spec's ViewSet declares Ω diagonal; the
derived default of line 59 is diagonal as well).  All inversions are
pseudo-inverses. -/
def black_litterman (market_weight covariance risk_aversion : ℚ)
    (P Q : List ℚ) (tau : ℚ) (Omega : Option (List ℚ)) : ℚ :=
  let inv_cov := pinv1 covariance
  let pi := risk_aversion * covariance * market_weight
  if P.length = 0 then pi
  else
    let tauSigma := tau * covariance
    let omega :=
      match Omega with
      | none => P.map (fun p => max (p * tauSigma * p) (1 / 100000000))
      | some om =>
        if om.length = 0 then P.map (fun p => max (p * tauSigma * p) (1 / 100000000)) else om
    let ptOP := ((P.zip omega).map (fun e => e.1 * pinv1 e.2 * e.1)).sum
    let ptOQ := ((P.zip (Q.zip omega)).map (fun e => e.1 * pinv1 e.2.2 * e.2.1)).sum
    let M := pinv1 (inv_cov + ptOP)
    M * (inv_cov * pi + ptOQ)

end Optimizer

/-- Modelled from the spec (§4.2 step 4): the Black-Litterman posterior mean
`μ_BL = (τΣ⁻¹ + PᵗΩ⁻¹P)⁻¹ · (τΣ⁻¹π + PᵗΩ⁻¹Q)` with `π = λ·Σ·w_mkt`, written at
the single-asset instance with diagonal Ω and pseudo-inverses, for comparison
with the two implementations. -/
def bl_posterior_spec (market_weight covariance risk_aversion : ℚ)
    (P Q : List ℚ) (tau : ℚ) (omega : List ℚ) : ℚ :=
  let pi := risk_aversion * covariance * market_weight
  let invTau := Optimizer.pinv1 (tau * covariance)
  let ptOP := ((P.zip omega).map (fun e => e.1 * Optimizer.pinv1 e.2 * e.1)).sum
  let ptOQ := ((P.zip (Q.zip omega)).map (fun e => e.1 * Optimizer.pinv1 e.2.2 * e.2.1)).sum
  Optimizer.pinv1 (invTau + ptOP) * (invTau * pi + ptOQ)

/-! ## src/tradingagents/agents/managers/MVO_BLM/blm.py -/

namespace BLM

/-- `np.linalg.inv` on the 1×1 matrix `[a]`: the strict inverse, raising
`LinAlgError` (modelled as `none`) when the matrix is singular. -/
def inv1 (a : ℚ) : Option ℚ :=
  if a = 0 then none else some a⁻¹

/-- `black_litterman` (blm.py lines 5-44) at the single-asset instance: `P` is
the identity, `Q` the single view value, `Ω = omega_scale · diag(diag(τΣ))`.
Returns `(mu_bl, cov_bl, pi)`, or `none` when one of its strict `np.linalg.inv`
calls raises. -/
def black_litterman (cov market_weight view risk_aversion tau omega_scale : ℚ) :
    Option (ℚ × ℚ × ℚ) :=
  let s := market_weight
  let w_mkt := market_weight / (if s ≠ 0 then s else 1)
  let pi := risk_aversion * cov * w_mkt
  let omega := omega_scale * (tau * cov)
  match inv1 (tau * cov) with
  | none => none
  | some inv_tau_cov =>
    match inv1 omega with
    | none => none
    | some omega_inv =>
      let middle := inv_tau_cov + omega_inv
      let right := inv_tau_cov * pi + omega_inv * view
      match inv1 middle with
      | none => none
      | some mid_inv => some (mid_inv * right, mid_inv, pi)

end BLM

/-! ## src/tradingagents/agents/managers/MVO_BLM/pipeline.py -/

namespace Pipeline

/-- A trade emitted by `size_positions`:
`{"delta_shares": .., "target_qty": .., "current_qty": .., "price": ..}`. -/
structure Trade where
  delta_shares : Int
  target_qty : Int
  current_qty : Int
  price : ℚ
  deriving Repr, DecidableEq

/-- Per-ticker trade computation of `size_positions`
(pipeline.py lines 105-135), given the decision string (already uppercased by
the caller), the price, the target dollar value, the current quantity and the
minimum lot. -/
def trade_for (decision : String) (price : ℚ) (target_value : ℚ)
    (curr_qty : Int) (min_lot : Int) : Trade :=
  let target_qty0 := max 0 ⌊target_value / price⌋
  let target_qty := if decision = "SELL" then 0 else target_qty0
  let delta :=
    if 0 < curr_qty then
      if decision = "SELL" then -curr_qty
      else if decision = "BUY" then target_qty - curr_qty
      else target_qty - curr_qty
    else
      if decision = "BUY" ∨ decision = "HOLD" then
        let qty := if 0 < target_qty then target_qty else max min_lot 1
        max 0 qty
      else if curr_qty < 0 then -curr_qty else 0
  { delta_shares := delta, target_qty := target_qty, current_qty := curr_qty, price := price }

/-- The trade-translation loop of `size_positions`
(pipeline.py lines 93-137), taking the optimizer weights `w` as input (the
upstream covariance/Black-Litterman/optimizer stages produce `w`; the claim
quantifies over it).  Tickers without a positive price are skipped; on
duplicate-free ticker lists the association list equals the Python dict. -/
def size_positions_trades (tickers : List String) (w : List ℚ)
    (holdings : List (String × HedgeFund.Holding)) (prices : HedgeFund.Prices)
    (decisions : List (String × String)) (total_cash : ℚ) (min_lot : Int) :
    List (String × Trade) :=
  let current_value :=
    (tickers.map (fun t => (HedgeFund.qtyOf holdings t : ℚ) * HedgeFund.pget prices t 0)).sum
  let pv0 := total_cash + current_value
  let portfolio_value := if pv0 ≤ 0 then 1000000 else pv0
  (tickers.zip w).filterMap (fun e =>
    let price := HedgeFund.pget prices e.1 0
    if price ≤ 0 then none
    else
      let target_value := max 0 e.2 * portfolio_value
      let decision := HedgeFund.dget decisions e.1 "HOLD"
      some (e.1, trade_for decision price target_value (HedgeFund.qtyOf holdings e.1) min_lot))

end Pipeline

/-! ## Association-list and valuation lemmas -/

theorem dfind_dictInsert_self {α : Type} (t : String) (v : α) (m : List (String × α)) :
    dfind t (dictInsert t v m) = some v := by
  induction m with
  | nil => simp [dictInsert, dfind]
  | cons e rest ih =>
    by_cases h : e.1 = t
    · simp [dictInsert, h, dfind]
    · simp [dictInsert, h, dfind, ih]

theorem dfind_dictInsert_ne {α : Type} {u t : String} (h : u ≠ t) (v : α)
    (m : List (String × α)) : dfind u (dictInsert t v m) = dfind u m := by
  induction m with
  | nil => simp [dictInsert, dfind, Ne.symm h]
  | cons e rest ih =>
    by_cases he : e.1 = t
    · rw [show dictInsert t v (e :: rest) = (t, v) :: rest by simp [dictInsert, he]]
      show (if t = u then some v else dfind u rest) = _
      rw [if_neg (Ne.symm h)]
      show _ = (if e.1 = u then some e.2 else dfind u rest)
      rw [if_neg (by rw [he]; exact Ne.symm h)]
    · rw [show dictInsert t v (e :: rest) = e :: dictInsert t v rest by simp [dictInsert, he]]
      show (if e.1 = u then some e.2 else dfind u (dictInsert t v rest)) = _
      rw [ih]
      rfl

theorem mem_keysOf_dictInsert {α : Type} (u t : String) (v : α) (m : List (String × α)) :
    u ∈ keysOf (dictInsert t v m) ↔ u = t ∨ u ∈ keysOf m := by
  induction m with
  | nil => simp [dictInsert, keysOf, eq_comm]
  | cons e rest ih =>
    by_cases he : e.1 = t
    · rw [show dictInsert t v (e :: rest) = (t, v) :: rest by simp [dictInsert, he]]
      simp [keysOf, he, eq_comm]
      try tauto
    · rw [show dictInsert t v (e :: rest) = e :: dictInsert t v rest by simp [dictInsert, he]]
      simp only [keysOf, List.map_cons, List.mem_cons] at ih ⊢
      rw [ih]
      tauto

theorem keysOf_dictInsert_nodup {α : Type} (t : String) (v : α) (m : List (String × α))
    (h : (keysOf m).Nodup) : (keysOf (dictInsert t v m)).Nodup := by
  induction m with
  | nil => simp [dictInsert, keysOf]
  | cons e rest ih =>
    rw [show keysOf (e :: rest) = e.1 :: keysOf rest from rfl, List.nodup_cons] at h
    by_cases he : e.1 = t
    · rw [show dictInsert t v (e :: rest) = (t, v) :: rest by simp [dictInsert, he]]
      rw [show keysOf ((t, v) :: rest) = t :: keysOf rest from rfl, List.nodup_cons]
      exact ⟨by rw [← he]; exact h.1, h.2⟩
    · rw [show dictInsert t v (e :: rest) = e :: dictInsert t v rest by simp [dictInsert, he]]
      rw [show keysOf (e :: dictInsert t v rest) = e.1 :: keysOf (dictInsert t v rest) from rfl,
        List.nodup_cons]
      refine ⟨?_, ih h.2⟩
      intro hmem
      rcases (mem_keysOf_dictInsert e.1 t v rest).1 hmem with h1 | h1
      · exact he h1
      · exact h.1 h1

theorem dictInsert_eq_append {α : Type} {t : String} {m : List (String × α)}
    (h : t ∉ keysOf m) (v : α) : dictInsert t v m = m ++ [(t, v)] := by
  induction m with
  | nil => simp [dictInsert]
  | cons e rest ih =>
    rw [show keysOf (e :: rest) = e.1 :: keysOf rest from rfl, List.mem_cons] at h
    push_neg at h
    simp [dictInsert, Ne.symm h.1, ih h.2]

theorem dfind_eq_none_iff {α : Type} (t : String) (m : List (String × α)) :
    dfind t m = none ↔ t ∉ keysOf m := by
  induction m with
  | nil => simp [dfind, keysOf]
  | cons e rest ih =>
    by_cases h : e.1 = t
    · simp [dfind, h, keysOf]
    · simp only [dfind, h, if_false, keysOf, List.map_cons, List.mem_cons]
      rw [show keysOf rest = rest.map Prod.fst from rfl] at ih
      rw [ih]
      constructor
      · intro hh
        push_neg
        exact ⟨fun hc => h hc.symm, hh⟩
      · intro hh
        push_neg at hh
        exact hh.2

theorem dfind_mem {α : Type} {t : String} {v : α} {m : List (String × α)}
    (h : dfind t m = some v) : (t, v) ∈ m := by
  induction m with
  | nil => simp [dfind] at h
  | cons e rest ih =>
    by_cases he : e.1 = t
    · simp only [dfind, he, if_pos] at h
      have : (t, v) = e := by
        cases e
        simp at he h ⊢
        exact ⟨he.symm, h.symm⟩
      rw [this]
      exact List.mem_cons_self e rest
    · simp only [dfind, he, if_false] at h
      exact List.mem_cons_of_mem _ (ih h)

theorem dfind_of_mem_nodup {α : Type} {t : String} {v : α} {m : List (String × α)}
    (hnd : (keysOf m).Nodup) (h : (t, v) ∈ m) : dfind t m = some v := by
  induction m with
  | nil => simp at h
  | cons e rest ih =>
    rw [show keysOf (e :: rest) = e.1 :: keysOf rest from rfl, List.nodup_cons] at hnd
    rcases List.mem_cons.1 h with h1 | h1
    · rw [← h1]
      simp [dfind]
    · have ht : e.1 ≠ t := by
        intro hh
        apply hnd.1
        rw [hh]
        exact List.mem_map_of_mem Prod.fst h1
      simp only [dfind, ht, if_false]
      exact ih hnd.2 h1

theorem entries_dictInsert {α : Type} {P : α → Prop} {m : List (String × α)} {v : α}
    (hm : ∀ e ∈ m, P e.2) (hv : P v) (t : String) :
    ∀ e ∈ dictInsert t v m, P e.2 := by
  induction m with
  | nil =>
    intro e he
    simp [dictInsert] at he
    simp [he, hv]
  | cons b rest ih =>
    intro e he
    by_cases hb : b.1 = t
    · rw [show dictInsert t v (b :: rest) = (t, v) :: rest by simp [dictInsert, hb]] at he
      rcases List.mem_cons.1 he with he | he
      · simp [he, hv]
      · exact hm e (List.mem_cons_of_mem _ he)
    · rw [show dictInsert t v (b :: rest) = b :: dictInsert t v rest by simp [dictInsert, hb]] at he
      rcases List.mem_cons.1 he with he | he
      · rw [he]
        exact hm b (List.mem_cons_self b rest)
      · exact ih (fun x hx => hm x (List.mem_cons_of_mem _ hx)) e he

theorem entries_dictInsert_qty {m : List (String × Holding)} {v : Holding}
    (hm : ∀ e ∈ m, 0 ≤ e.2.totalAmount) (hv : 0 ≤ v.totalAmount) (t : String) :
    ∀ e ∈ dictInsert t v m, 0 ≤ e.2.totalAmount :=
  @entries_dictInsert Holding (fun h => 0 ≤ h.totalAmount) m v hm hv t

theorem qtyOf_nonneg {m : List (String × Holding)}
    (hm : ∀ e ∈ m, 0 ≤ e.2.totalAmount) (t : String) : 0 ≤ qtyOf m t := by
  unfold qtyOf
  cases h : dfind t m with
  | none => simp
  | some v => simpa using hm (t, v) (dfind_mem h)

theorem pval_append (prices : Prices) (m1 m2 : List (String × Holding)) :
    pval prices (m1 ++ m2) = pval prices m1 + pval prices m2 := by
  simp [pval]

theorem dfind_map_keyed {α β : Type} (g : String → α → β) (t : String)
    (m : List (String × α)) :
    dfind t (m.map (fun e => (e.1, g e.1 e.2))) = (dfind t m).map (g t) := by
  induction m with
  | nil => simp [dfind]
  | cons e rest ih =>
    by_cases h : e.1 = t
    · subst h
      simp [dfind]
    · simp [dfind, h, ih]

theorem compute_market_value_update (s : Snapshot) (prices : Prices) :
    compute_market_value (update_snapshot_prices s prices) = pval prices s.portfolio := by
  simp only [compute_market_value, update_snapshot_prices, List.map_map]
  rfl

theorem pval_update (s : Snapshot) (prices : Prices) :
    pval prices (update_snapshot_prices s prices).portfolio = pval prices s.portfolio := by
  simp only [pval, update_snapshot_prices, List.map_map]
  refine congrArg List.sum (List.map_congr_left ?_)
  intro e _
  show (e.2.totalAmount : ℚ) * pget prices e.1 (pget prices e.1 e.2.last_price) = _
  cases h : dfind e.1 prices <;> simp [pget, h]

theorem pap_initial_equity_eq (s : Snapshot) (prices : Prices) :
    pap_initial_equity s prices = equityAt prices s := by
  show compute_market_value (update_snapshot_prices s prices)
    + (update_snapshot_prices s prices).cash = _
  rw [compute_market_value_update]
  show pval prices s.portfolio + s.cash = _
  rw [equityAt, add_comm]

theorem insertDescQ_perm {α : Type} (key : α → ℚ) (a : α) (l : List α) :
    (insertDescQ key a l).Perm (a :: l) := by
  induction l with
  | nil => simp [insertDescQ]
  | cons b rest ih =>
    by_cases h : key b ≤ key a
    · simp [insertDescQ, h]
    · simp only [insertDescQ, h, if_false]
      exact (ih.cons b).trans (List.Perm.swap a b rest)

theorem sortByDescQ_perm {α : Type} (key : α → ℚ) (l : List α) :
    (sortByDescQ key l).Perm l := by
  induction l with
  | nil => simp [sortByDescQ]
  | cons a rest ih =>
    exact (insertDescQ_perm key a (sortByDescQ key rest)).trans (ih.cons a)

theorem sum_map_div (l : List ℚ) (s : ℚ) :
    (l.map (fun x => x / s)).sum = l.sum / s := by
  induction l with
  | nil => simp
  | cons a rest ih => simp [ih, add_div]

theorem force_cash_nonneg (s : Snapshot) (prices : Prices) :
    0 ≤ (force_cash_non_negative s prices).cash := by
  unfold force_cash_non_negative
  by_cases h : 0 ≤ s.cash
  · simp [h, update_snapshot_prices]
  · simp [h, update_snapshot_prices]

/-! ## Claim theorems -/

/-- C2: for every starting snapshot, price map and target-weight subset, every
snapshot the engine emits after its correction pass — `apply_partial_target_weights`
(which contains the buy-unwind and emergency-sell loops) followed by the
`force_cash_non_negative` pass applied to every written snapshot (both on
rebalance days and on revaluation days) — has cash ≥ 0. -/
theorem correction_pass_cash_nonneg (snap : Snapshot) (prices : Prices)
    (pw : List (String × ℚ)) :
    0 ≤ (force_cash_non_negative (apply_partial_target_weights snap prices pw).1 prices).cash ∧
    0 ≤ (force_cash_non_negative (update_snapshot_prices snap prices) prices).cash :=
  ⟨force_cash_nonneg _ _, force_cash_nonneg _ _⟩

/-- C4: evaluation of `apply_partial_target_weights` at the failing input
snapshot `{A: 10 shares @ last 10, entry 5}`, cash 0, price `{A: 10}`, target
weights `{A: 0}`.  The claimed behavior is a sell-down to the target quantity
(A: 0 shares) with the proceeds (100) kept in cash; the code instead returns
the original quantity (A: 10 shares) with cash back at 0, because the sell
pass only credits cash while `new_portfolio` is copied from the unreduced
previous portfolio, and the final equity guard then claws the credit back —
even though the returned change log records the sell `("A", 10, 0)`. -/
theorem sell_down_not_recorded :
    (apply_partial_target_weights
        { portfolio := [("A", { totalAmount := 10, last_price := 10, entry_price := 5 })],
          cash := 0 }
        [("A", 10)] [("A", 0)]).1 =
      { portfolio := [("A", { totalAmount := 10, last_price := 10, entry_price := 5 })],
        cash := 0 } ∧
    (apply_partial_target_weights
        { portfolio := [("A", { totalAmount := 10, last_price := 10, entry_price := 5 })],
          cash := 0 }
        [("A", 10)] [("A", 0)]).2 = [("A", 10, 0)] := by
  norm_num +decide [apply_partial_target_weights, pap_pre_correction, pap_after_buys,
    pap_after_unwind, pap_buy_reqs, pap_scale, pap_total_cost, pap_allowable_budget,
    pap_buy_step, pap_initial_equity, pap_cash_after_sells, pap_sell_changes, pap_target_qty,
    pap_subset_value, update_snapshot_prices, compute_market_value, emergency_sells,
    sell_candidates, pget, dfind, qtyOf, lastOf, entryOf, dictInsert, pyTrunc,
    List.filterMap_cons]

/-- C7: for every expected-return vector and pseudo-inverted covariance, the
long-only weights of `mean_variance_optimize` are all ≥ 0 and sum to 1 within
1e-9, and when every clipped weight is 0 (all views bearish) the result is the
equal-weight vector 1/N over the candidate universe, never all-zero. -/
theorem optimizer_weight_validity (er : List ℚ) (pinvC : List (List ℚ)) (ra : ℚ)
    (hn : 0 < er.length) :
    (∀ x ∈ Optimizer.mvo_weights er pinvC ra true, 0 ≤ x) ∧
    |(Optimizer.mvo_weights er pinvC ra true).sum - 1| ≤ 1 / 1000000000 ∧
    ((Optimizer.mvo_clipped er pinvC ra).sum = 0 →
      Optimizer.mvo_weights er pinvC ra true = List.replicate er.length (1 / (er.length : ℚ))) := by
  have hcl : ∀ x ∈ Optimizer.mvo_clipped er pinvC ra, 0 ≤ x := by
    intro x hx
    obtain ⟨y, _, rfl⟩ := List.mem_map.1 hx
    exact le_max_right y 0
  have hncast : (0 : ℚ) < (er.length : ℚ) := by exact_mod_cast hn
  by_cases hs : 0 < (Optimizer.mvo_clipped er pinvC ra).sum
  · have hw : Optimizer.mvo_weights er pinvC ra true =
        (Optimizer.mvo_clipped er pinvC ra).map
          (fun x => x / (Optimizer.mvo_clipped er pinvC ra).sum) := by
      simp [Optimizer.mvo_weights, hs]
    refine ⟨?_, ?_, ?_⟩
    · intro x hx
      rw [hw] at hx
      obtain ⟨y, hy, rfl⟩ := List.mem_map.1 hx
      exact div_nonneg (hcl y hy) hs.le
    · rw [hw, sum_map_div, div_self (ne_of_gt hs)]
      norm_num
    · intro h0
      rw [h0] at hs
      exact absurd hs (by norm_num)
  · have h0 : (Optimizer.mvo_clipped er pinvC ra).sum = 0 :=
      le_antisymm (not_lt.1 hs) (List.sum_nonneg hcl)
    have hw : Optimizer.mvo_weights er pinvC ra true =
        List.replicate er.length (1 / (er.length : ℚ)) := by
      simp [Optimizer.mvo_weights, hs]
    refine ⟨?_, ?_, fun _ => hw⟩
    · intro x hx
      rw [hw] at hx
      rw [List.eq_of_mem_replicate hx]
      positivity
    · rw [hw, List.sum_replicate, nsmul_eq_mul, mul_one_div,
        div_self (ne_of_gt hncast)]
      norm_num

/-- Closed witness for C7 at `μ = [2, -1]`, pseudo-inverse the 2×2 identity,
risk aversion 1. -/
theorem optimizer_weight_validity_witness :
    0 < ([(2 : ℚ), -1].length) ∧
    ((∀ x ∈ Optimizer.mvo_weights [2, -1] [[1, 0], [0, 1]] 1 true, 0 ≤ x) ∧
     |(Optimizer.mvo_weights [2, -1] [[1, 0], [0, 1]] 1 true).sum - 1| ≤ 1 / 1000000000 ∧
     ((Optimizer.mvo_clipped [2, -1] [[1, 0], [0, 1]] 1).sum = 0 →
       Optimizer.mvo_weights [2, -1] [[1, 0], [0, 1]] 1 true =
         List.replicate ([(2 : ℚ), -1].length) (1 / (([(2 : ℚ), -1].length : ℕ) : ℚ)))) :=
  ⟨by norm_num, optimizer_weight_validity [2, -1] [[1, 0], [0, 1]] 1 (by norm_num)⟩

theorem pyTrunc_eq_floor {q : ℚ} (h : 0 ≤ q) : pyTrunc q = ⌊q⌋ := by
  unfold pyTrunc
  rw [if_neg (not_lt.2 h)]

theorem pap_buy_reqs_pos (s : Snapshot) (prices : Prices) (pw : List (String × ℚ)) :
    ∀ r ∈ pap_buy_reqs s prices pw, 0 < r.need_q := by
  intro r hr
  unfold pap_buy_reqs at hr
  obtain ⟨e, _, he⟩ := List.mem_filterMap.1 hr
  by_cases hq : qtyOf s.portfolio e.1 < e.2
  · rw [if_pos hq] at he
    obtain rfl := Option.some_injective _ he
    simpa using hq
  · rw [if_neg hq] at he
    exact absurd he (by simp)

theorem pap_buy_reqs_keys (s : Snapshot) (prices : Prices) (pw : List (String × ℚ)) :
    ∀ r ∈ pap_buy_reqs s prices pw, r.t ∈ keysOf pw := by
  intro r hr
  unfold pap_buy_reqs at hr
  obtain ⟨e, he, heq⟩ := List.mem_filterMap.1 hr
  have ht : r.t = e.1 := by
    by_cases hq : qtyOf s.portfolio e.1 < e.2
    · rw [if_pos hq] at heq
      obtain rfl := Option.some_injective _ heq
      rfl
    · rw [if_neg hq] at heq
      exact absurd heq (by simp)
  rw [ht]
  unfold pap_target_qty at he
  obtain ⟨x, hx, hxe⟩ := List.mem_map.1 he
  rw [← hxe]
  exact List.mem_map_of_mem Prod.fst hx

theorem pap_buys_applied (scale : ℚ) :
    ∀ (l : List BuyReq) (st : BuyState),
    (l.foldl (pap_buy_step scale) st).applied =
      st.applied ++ l.filterMap (fun r =>
        let bq := pyTrunc ((r.need_q : ℚ) * scale)
        if bq ≤ 0 then none else some (r.t, bq, r.px)) := by
  intro l
  induction l with
  | nil => simp
  | cons r rest ih =>
    intro st
    rw [List.foldl_cons, ih, List.filterMap_cons]
    by_cases hb : pyTrunc ((r.need_q : ℚ) * scale) ≤ 0
    · rw [show pap_buy_step scale st r = st by simp [pap_buy_step, hb]]
      simp [hb]
    · rw [show (pap_buy_step scale st r).applied =
          st.applied ++ [(r.t, pyTrunc ((r.need_q : ℚ) * scale), r.px)] by
            simp [pap_buy_step, hb]]
      simp [hb]

theorem pap_buys_dfind_other (scale : ℚ) (t : String) :
    ∀ (l : List BuyReq) (st : BuyState), (∀ r ∈ l, r.t ≠ t) →
    dfind t (l.foldl (pap_buy_step scale) st).np = dfind t st.np := by
  intro l
  induction l with
  | nil => intro st _; rfl
  | cons r rest ih =>
    intro st hl
    rw [List.foldl_cons, ih _ (fun x hx => hl x (List.mem_cons_of_mem _ hx))]
    unfold pap_buy_step
    by_cases hb : pyTrunc ((r.need_q : ℚ) * scale) ≤ 0
    · rw [if_pos hb]
    · rw [if_neg hb]
      exact dfind_dictInsert_ne (Ne.symm (hl r (List.mem_cons_self r rest))) _ _

/-- C5: in partial rebalance mode, when the requested buy cost exceeds the
allowable budget `min(cash, 5% of total equity)`, every pending buy is scaled
by the same factor `scale = min(1, allowable_budget / total_requested_cost)`
and floored to whole shares — proportional across all pending buys, not
first-come-first-served: the applied buys are exactly the pending requests
with quantities `⌊need·scale⌋` (dropped when the scaled quantity is 0). -/
theorem proportional_buy_scaling (snap : Snapshot) (prices : Prices) (pw : List (String × ℚ))
    (htc : 0 < pap_total_cost snap prices pw)
    (hab : 0 ≤ pap_allowable_budget snap prices pw) :
    pap_scale snap prices pw =
      min 1 (pap_allowable_budget snap prices pw / pap_total_cost snap prices pw) ∧
    (∀ r ∈ pap_buy_reqs snap prices pw,
      pyTrunc ((r.need_q : ℚ) * pap_scale snap prices pw) =
        ⌊(r.need_q : ℚ) *
          min 1 (pap_allowable_budget snap prices pw / pap_total_cost snap prices pw)⌋) ∧
    (pap_after_buys snap prices pw).applied =
      (pap_buy_reqs snap prices pw).filterMap (fun r =>
        let bq := pyTrunc ((r.need_q : ℚ) * pap_scale snap prices pw)
        if bq ≤ 0 then none else some (r.t, bq, r.px)) := by
  have hmin : pap_scale snap prices pw =
      min 1 (pap_allowable_budget snap prices pw / pap_total_cost snap prices pw) := by
    unfold pap_scale
    by_cases h : pap_allowable_budget snap prices pw < pap_total_cost snap prices pw
    · rw [if_pos ⟨h, htc⟩, min_eq_right ((div_le_one htc).2 h.le)]
    · have h1 : (1 : ℚ) ≤ pap_allowable_budget snap prices pw / pap_total_cost snap prices pw :=
        (one_le_div htc).2 (not_lt.1 h)
      rw [min_eq_left h1]
      rw [if_neg (fun hc => h hc.1)]
  have hscale : 0 ≤ pap_scale snap prices pw := by
    rw [hmin]
    exact le_min (by norm_num) (div_nonneg hab htc.le)
  refine ⟨hmin, ?_, ?_⟩
  · intro r hr
    have hq : (0 : ℚ) ≤ (r.need_q : ℚ) * pap_scale snap prices pw :=
      mul_nonneg (by exact_mod_cast (pap_buy_reqs_pos snap prices pw r hr).le) hscale
    rw [pyTrunc_eq_floor hq, hmin]
  · rw [show pap_after_buys snap prices pw =
        (pap_buy_reqs snap prices pw).foldl (pap_buy_step (pap_scale snap prices pw))
          { np := snap.portfolio,
            cash := pap_cash_after_sells snap prices pw,
            changes := pap_sell_changes snap prices pw,
            applied := [] } from rfl]
    rw [pap_buys_applied]
    simp

/-- Closed witness for C5: holdings `{X: 94 @ 1000}`, cash 6000, two fresh
tickers A, B at price 1 with full target weights; 10000 requested against the
5000 budget (5% of the 100000 total equity), so every buy scales by 1/2. -/
theorem proportional_buy_scaling_witness :
    (0 < pap_total_cost
        { portfolio := [("X", { totalAmount := 94, last_price := 1000, entry_price := 1000 })],
          cash := 6000 }
        [("X", 1000), ("A", 1), ("B", 1)] [("A", 1), ("B", 1)] ∧
     0 ≤ pap_allowable_budget
        { portfolio := [("X", { totalAmount := 94, last_price := 1000, entry_price := 1000 })],
          cash := 6000 }
        [("X", 1000), ("A", 1), ("B", 1)] [("A", 1), ("B", 1)]) ∧
    (pap_scale
        { portfolio := [("X", { totalAmount := 94, last_price := 1000, entry_price := 1000 })],
          cash := 6000 }
        [("X", 1000), ("A", 1), ("B", 1)] [("A", 1), ("B", 1)] =
      min 1 (pap_allowable_budget
        { portfolio := [("X", { totalAmount := 94, last_price := 1000, entry_price := 1000 })],
          cash := 6000 }
        [("X", 1000), ("A", 1), ("B", 1)] [("A", 1), ("B", 1)] /
        pap_total_cost
        { portfolio := [("X", { totalAmount := 94, last_price := 1000, entry_price := 1000 })],
          cash := 6000 }
        [("X", 1000), ("A", 1), ("B", 1)] [("A", 1), ("B", 1)]) ∧
     (∀ r ∈ pap_buy_reqs
        { portfolio := [("X", { totalAmount := 94, last_price := 1000, entry_price := 1000 })],
          cash := 6000 }
        [("X", 1000), ("A", 1), ("B", 1)] [("A", 1), ("B", 1)],
      pyTrunc ((r.need_q : ℚ) * pap_scale
        { portfolio := [("X", { totalAmount := 94, last_price := 1000, entry_price := 1000 })],
          cash := 6000 }
        [("X", 1000), ("A", 1), ("B", 1)] [("A", 1), ("B", 1)]) =
        ⌊(r.need_q : ℚ) *
          min 1 (pap_allowable_budget
            { portfolio := [("X", { totalAmount := 94, last_price := 1000, entry_price := 1000 })],
              cash := 6000 }
            [("X", 1000), ("A", 1), ("B", 1)] [("A", 1), ("B", 1)] /
            pap_total_cost
            { portfolio := [("X", { totalAmount := 94, last_price := 1000, entry_price := 1000 })],
              cash := 6000 }
            [("X", 1000), ("A", 1), ("B", 1)] [("A", 1), ("B", 1)])⌋) ∧
     (pap_after_buys
        { portfolio := [("X", { totalAmount := 94, last_price := 1000, entry_price := 1000 })],
          cash := 6000 }
        [("X", 1000), ("A", 1), ("B", 1)] [("A", 1), ("B", 1)]).applied =
      (pap_buy_reqs
        { portfolio := [("X", { totalAmount := 94, last_price := 1000, entry_price := 1000 })],
          cash := 6000 }
        [("X", 1000), ("A", 1), ("B", 1)] [("A", 1), ("B", 1)]).filterMap (fun r =>
        let bq := pyTrunc ((r.need_q : ℚ) * pap_scale
          { portfolio := [("X", { totalAmount := 94, last_price := 1000, entry_price := 1000 })],
            cash := 6000 }
          [("X", 1000), ("A", 1), ("B", 1)] [("A", 1), ("B", 1)])
        if bq ≤ 0 then none else some (r.t, bq, r.px))) := by
  constructor
  · constructor
    · norm_num +decide [pap_total_cost, pap_buy_reqs, pap_target_qty, pap_subset_value,
        update_snapshot_prices, compute_market_value, pget, dfind, qtyOf, lastOf,
        List.filterMap_cons]
    · norm_num +decide [pap_allowable_budget, pap_cash_after_sells, pap_target_qty,
        pap_subset_value, update_snapshot_prices, compute_market_value, pget, dfind, qtyOf,
        lastOf, List.filterMap_cons]
  · exact proportional_buy_scaling _ _ _
      (by norm_num +decide [pap_total_cost, pap_buy_reqs, pap_target_qty, pap_subset_value,
        update_snapshot_prices, compute_market_value, pget, dfind, qtyOf, lastOf,
        List.filterMap_cons])
      (by norm_num +decide [pap_allowable_budget, pap_cash_after_sells, pap_target_qty,
        pap_subset_value, update_snapshot_prices, compute_market_value, pget, dfind, qtyOf,
        lastOf, List.filterMap_cons])

/-- C8 counterexample: at Σ = 2, w = 1, λ = 1, τ = 1/20, one view P = [1],
Q = [0], Ω = [1], the testing `black_litterman` (optimizer.py) returns
2/3 — its precision term uses `pinv(Σ)` — while the spec's posterior formula
with prior precision `(τΣ)⁻¹` gives 20/11; so the claim that `black_litterman`
computes the τ-scaled formula fails on the optimizer.py implementation. -/
theorem bl_precision_term_counterexample :
    Optimizer.black_litterman 1 2 1 [1] [0] (5 / 100) (some [1]) ≠
      bl_posterior_spec 1 2 1 [1] [0] (5 / 100) [1] := by
  norm_num +decide [Optimizer.black_litterman, bl_posterior_spec, Optimizer.pinv1]

/-- C8 amended: the MVO_BLM implementation (blm.py) does return the posterior
mean `(τΣ⁻¹ + PᵗΩ⁻¹P)⁻¹ · (τΣ⁻¹π + PᵗΩ⁻¹Q)` with the prior precision the
inverse of τΣ (shown here at the single-asset instance, whenever its strict
inversions are defined, with P the identity and Ω = ωs·τΣ as blm.py builds
them), and the testing implementation (optimizer.py) returns π unchanged when
P is empty; but the testing implementation's precision term uses `pinv(Σ)`,
not `(τΣ)⁻¹` (see the counterexample). -/
theorem bl_posterior_forms (cov w view ra tau os : ℚ)
    (h1 : tau * cov ≠ 0) (h2 : os * (tau * cov) ≠ 0)
    (h3 : (tau * cov)⁻¹ + (os * (tau * cov))⁻¹ ≠ 0) :
    BLM.black_litterman cov w view ra tau os =
      some (bl_posterior_spec (w / (if w ≠ 0 then w else 1)) cov ra [1] [view] tau
              [os * (tau * cov)],
            ((tau * cov)⁻¹ + (os * (tau * cov))⁻¹)⁻¹,
            ra * cov * (w / (if w ≠ 0 then w else 1))) ∧
    (∀ (w2 cov2 ra2 tau2 : ℚ) (Q : List ℚ) (Om : Option (List ℚ)),
      Optimizer.black_litterman w2 cov2 ra2 [] Q tau2 Om = ra2 * cov2 * w2) := by
  constructor
  · have e1 : BLM.inv1 (tau * cov) = some (tau * cov)⁻¹ := by
      unfold BLM.inv1
      rw [if_neg h1]
    have e2 : BLM.inv1 (os * (tau * cov)) = some (os * (tau * cov))⁻¹ := by
      unfold BLM.inv1
      rw [if_neg h2]
    have e3 : BLM.inv1 ((tau * cov)⁻¹ + (os * (tau * cov))⁻¹) =
        some (((tau * cov)⁻¹ + (os * (tau * cov))⁻¹)⁻¹) := by
      unfold BLM.inv1
      rw [if_neg h3]
    have p1 : Optimizer.pinv1 (tau * cov) = (tau * cov)⁻¹ := by
      unfold Optimizer.pinv1
      rw [if_neg h1]
    have p2 : Optimizer.pinv1 (os * (tau * cov)) = (os * (tau * cov))⁻¹ := by
      unfold Optimizer.pinv1
      rw [if_neg h2]
    have p3 : Optimizer.pinv1 ((tau * cov)⁻¹ + (os * (tau * cov))⁻¹) =
        ((tau * cov)⁻¹ + (os * (tau * cov))⁻¹)⁻¹ := by
      unfold Optimizer.pinv1
      rw [if_neg h3]
    simp only [BLM.black_litterman, e1, e2, e3]
    simp only [bl_posterior_spec, List.zip_cons_cons, List.zip_nil_right, List.zip_nil_left,
      List.map_cons, List.map_nil, List.sum_cons, List.sum_nil, p1, p2, one_mul, mul_one,
      add_zero, p3]
  · intro w2 cov2 ra2 tau2 Q Om
    simp [Optimizer.black_litterman]

/-- Closed witness for C8's amended theorem at Σ = 2, w = 1, view 1, λ = 1,
τ = 1/20, ωs = 1/2. -/
theorem bl_posterior_forms_witness :
    ((1 / 20 : ℚ) * 2 ≠ 0 ∧ (1 / 2 : ℚ) * (1 / 20 * 2) ≠ 0 ∧
      ((1 / 20 : ℚ) * 2)⁻¹ + ((1 / 2 : ℚ) * (1 / 20 * 2))⁻¹ ≠ 0) ∧
    (BLM.black_litterman 2 1 1 1 (1 / 20) (1 / 2) =
      some (bl_posterior_spec (1 / (if (1 : ℚ) ≠ 0 then 1 else 1)) 2 1 [1] [1] (1 / 20)
              [1 / 2 * (1 / 20 * 2)],
            (((1 / 20 : ℚ) * 2)⁻¹ + ((1 / 2 : ℚ) * (1 / 20 * 2))⁻¹)⁻¹,
            1 * 2 * (1 / (if (1 : ℚ) ≠ 0 then 1 else 1))) ∧
     (∀ (w2 cov2 ra2 tau2 : ℚ) (Q : List ℚ) (Om : Option (List ℚ)),
       Optimizer.black_litterman w2 cov2 ra2 [] Q tau2 Om = ra2 * cov2 * w2)) :=
  ⟨by norm_num,
   bl_posterior_forms 2 1 1 1 (1 / 20) (1 / 2) (by norm_num) (by norm_num) (by norm_num)⟩

theorem map_fst_zip_sublist {α β : Type} :
    ∀ (l : List α) (w : List β), ((l.zip w).map Prod.fst).Sublist l := by
  intro l
  induction l with
  | nil => intro w; simp
  | cons a rest ih =>
    intro w
    cases w with
    | nil => simp
    | cons b wrest =>
      rw [List.zip_cons_cons, List.map_cons]
      exact (ih wrest).cons₂ a

theorem size_trades_dfind (holdings : List (String × Holding)) (prices : Prices)
    (decisions : List (String × String)) (min_lot : Int) (pv : ℚ) :
    ∀ (l : List (String × ℚ)) (t : String) (wi : ℚ),
    (l.map Prod.fst).Nodup → (t, wi) ∈ l → 0 < pget prices t 0 →
    dfind t (l.filterMap (fun e =>
      if pget prices e.1 0 ≤ 0 then none
      else some (e.1, Pipeline.trade_for (dget decisions e.1 "HOLD") (pget prices e.1 0)
        (max 0 e.2 * pv) (qtyOf holdings e.1) min_lot))) =
      some (Pipeline.trade_for (dget decisions t "HOLD") (pget prices t 0)
        (max 0 wi * pv) (qtyOf holdings t) min_lot) := by
  intro l
  induction l with
  | nil => intro t wi _ hmem _; simp at hmem
  | cons e rest ih =>
    intro t wi hnd hmem hpx
    rw [List.map_cons, List.nodup_cons] at hnd
    rcases List.mem_cons.1 hmem with h1 | h1
    · have he1 : e.1 = t := by rw [← h1]
      have he2 : e.2 = wi := by rw [← h1]
      rw [List.filterMap_cons, he1, he2, if_neg (not_le.2 hpx)]
      show (if t = t then _ else _) = _
      rw [if_pos rfl]
    · have hne : e.1 ≠ t := by
        intro hh
        apply hnd.1
        rw [hh]
        exact List.mem_map_of_mem Prod.fst h1
      rw [List.filterMap_cons]
      by_cases hc : pget prices e.1 0 ≤ 0
      · rw [if_pos hc]
        exact ih t wi hnd.2 h1 hpx
      · rw [if_neg hc]
        show (if e.1 = t then _ else _) = _
        rw [if_neg hne]
        exact ih t wi hnd.2 h1 hpx

theorem ite_fst_portfolio {c : Prop} [Decidable c]
    {x y : Snapshot × List (String × Int × Int)} {P : List (String × Holding)}
    (hx : x.1.portfolio = P) (hy : y.1.portfolio = P) :
    (if c then x else y).1.portfolio = P := by
  split
  · exact hx
  · exact hy

theorem trade_for_flat_eq (d : String) (px tv : ℚ) (ml : Int)
    (hd : d = "BUY" ∨ d = "HOLD") :
    Pipeline.trade_for d px tv 0 ml =
      { delta_shares := if 0 < max 0 ⌊tv / px⌋ then max 0 ⌊tv / px⌋ else max ml 1,
        target_qty := max 0 ⌊tv / px⌋, current_qty := 0, price := px } := by
  have hds : d ≠ "SELL" := by rcases hd with hh | hh <;> rw [hh] <;> decide
  unfold Pipeline.trade_for
  simp only [if_neg hds, lt_irrefl, if_false, if_pos hd]
  by_cases h : 0 < max 0 ⌊tv / px⌋
  · simp only [if_pos h, max_eq_right h.le]
  · have hmm : (0 : Int) ⊔ (ml ⊔ 1) = ml ⊔ 1 :=
      max_eq_right (le_trans zero_le_one (le_max_right ml 1))
    simp only [if_neg h, hmm]

theorem flat_trade_props (T ml : Int) :
    1 ≤ (if 0 < T then T else max ml 1) ∧
    (T = 0 → (if 0 < T then T else max ml 1) = max ml 1) ∧
    (0 < T → (if 0 < T then T else max ml 1) = T) := by
  have hml : (1 : Int) ≤ max ml 1 := le_max_right ml 1
  by_cases h : 0 < T
  · rw [if_pos h]
    exact ⟨h, fun h0 => absurd (h0 ▸ h) (lt_irrefl 0), fun _ => rfl⟩
  · rw [if_neg h]
    exact ⟨hml, fun _ => rfl, fun hc => absurd hc h⟩

/-- C6: for a positively priced ticker, a SELL decision makes `size_positions`
emit a trade with target quantity 0 and `delta_shares = -current_qty` (full
exit) regardless of the optimizer weight, and a BUY or HOLD decision on a flat
(quantity-0) position emits a buy of at least one share — `max(min_lot, 1)`
shares whenever the optimizer weight rounds to a target of 0 shares, the target
itself otherwise — never a no-op. -/
theorem decision_override_trades (tickers : List String) (w : List ℚ)
    (holdings : List (String × Holding)) (prices : Prices)
    (decisions : List (String × String)) (cash : ℚ) (min_lot : Int) (t : String) (wi : ℚ)
    (hnd : tickers.Nodup) (hmem : (t, wi) ∈ tickers.zip w) (hpx : 0 < pget prices t 0) :
    (dget decisions t "HOLD" = "SELL" →
      dfind t (Pipeline.size_positions_trades tickers w holdings prices decisions cash min_lot) =
        some { delta_shares := -(qtyOf holdings t), target_qty := 0,
               current_qty := qtyOf holdings t, price := pget prices t 0 }) ∧
    ((dget decisions t "HOLD" = "BUY" ∨ dget decisions t "HOLD" = "HOLD") →
      qtyOf holdings t = 0 →
      ∃ tr, dfind t
          (Pipeline.size_positions_trades tickers w holdings prices decisions cash min_lot) =
          some tr ∧
        1 ≤ tr.delta_shares ∧ (tr.target_qty = 0 → tr.delta_shares = max min_lot 1) ∧
        (0 < tr.target_qty → tr.delta_shares = tr.target_qty)) := by
  have hznd : ((tickers.zip w).map Prod.fst).Nodup :=
    (map_fst_zip_sublist tickers w).nodup hnd
  have hfind := size_trades_dfind holdings prices decisions min_lot
    (if cash + (tickers.map
        (fun u => (qtyOf holdings u : ℚ) * pget prices u 0)).sum ≤ 0 then 1000000
     else cash + (tickers.map (fun u => (qtyOf holdings u : ℚ) * pget prices u 0)).sum)
    (tickers.zip w) t wi hznd hmem hpx
  have hshow : Pipeline.size_positions_trades tickers w holdings prices decisions cash min_lot =
      (tickers.zip w).filterMap (fun e =>
        if pget prices e.1 0 ≤ 0 then none
        else some (e.1, Pipeline.trade_for (dget decisions e.1 "HOLD") (pget prices e.1 0)
          (max 0 e.2 * (if cash + (tickers.map
              (fun u => (qtyOf holdings u : ℚ) * pget prices u 0)).sum ≤ 0 then 1000000
            else cash + (tickers.map
              (fun u => (qtyOf holdings u : ℚ) * pget prices u 0)).sum))
          (qtyOf holdings e.1) min_lot)) := rfl
  rw [hshow]
  constructor
  · intro hsell
    rw [hfind, hsell]
    congr 1
    unfold Pipeline.trade_for
    have hbuy : ("SELL" : String) ≠ "BUY" := by decide
    have hhold : ("SELL" : String) ≠ "HOLD" := by decide
    simp only [if_pos rfl]
    by_cases hc : 0 < qtyOf holdings t
    · simp only [hc, if_pos rfl, if_true]
    · simp only [hc, if_false]
      have : ¬(("SELL" : String) = "BUY" ∨ ("SELL" : String) = "HOLD") := by
        intro hh
        rcases hh with hh | hh
        · exact hbuy hh
        · exact hhold hh
      rw [if_neg this]
      have hle : qtyOf holdings t ≤ 0 := not_lt.1 hc
      by_cases hz : qtyOf holdings t < 0
      · simp [hz]
      · have h0 : qtyOf holdings t = 0 := le_antisymm hle (not_lt.1 hz)
        simp [hz, h0]
  · intro hd hflat
    rw [hflat] at hfind
    rw [trade_for_flat_eq _ _ _ _ hd] at hfind
    refine ⟨_, hfind, ?_⟩
    exact flat_trade_props _ min_lot

/-- Closed witness for C6, the spec's scenario 1: snapshot
`{AAPL: 10 @ last 100, entry 90}`, cash 1000, SELL on AAPL at price 110. -/
theorem decision_override_trades_witness :
    (["AAPL"].Nodup ∧ (("AAPL", (3 : ℚ) / 5) ∈ ["AAPL"].zip [(3 : ℚ) / 5]) ∧
      0 < pget [("AAPL", 110)] "AAPL" 0) ∧
    (dget [("AAPL", "SELL")] "AAPL" "HOLD" = "SELL" →
      dfind "AAPL" (Pipeline.size_positions_trades ["AAPL"] [3 / 5]
          [("AAPL", { totalAmount := 10, last_price := 100, entry_price := 90 })]
          [("AAPL", 110)] [("AAPL", "SELL")] 1000 1) =
        some { delta_shares :=
                -(qtyOf [("AAPL", { totalAmount := 10, last_price := 100, entry_price := 90 })]
                    "AAPL"),
               target_qty := 0,
               current_qty :=
                 qtyOf [("AAPL", { totalAmount := 10, last_price := 100, entry_price := 90 })]
                   "AAPL",
               price := pget [("AAPL", 110)] "AAPL" 0 }) := by
  constructor
  · refine ⟨by decide, by simp, ?_⟩
    norm_num [pget, dfind]
  · exact (decision_override_trades ["AAPL"] [3 / 5]
      [("AAPL", { totalAmount := 10, last_price := 100, entry_price := 90 })]
      [("AAPL", 110)] [("AAPL", "SELL")] 1000 1 "AAPL" (3 / 5)
      (by decide) (by simp) (by norm_num [pget, dfind])).1

/-- C9 counterexample: on the singular covariance Σ = 0 the MVO_BLM
`black_litterman` (blm.py) raises `LinAlgError` from `np.linalg.inv(τΣ)`
(modelled as `none`), so view fusion does not tolerate every singular
covariance and does not use a pseudo-inverse everywhere. -/
theorem blm_inv_raises_counterexample :
    BLM.black_litterman 0 1 0 3 (1 / 40) (1 / 2) = none := by
  norm_num +decide [BLM.black_litterman, BLM.inv1]

/-- C9 amended: the testing implementations never raise — for every covariance
(singular included) a well-shaped call of `mean_variance_optimize` returns a
result, its only inversion being the total pseudo-inverse — while the MVO_BLM
`black_litterman` uses the strict `np.linalg.inv` and raises whenever τΣ is
singular. -/
theorem inversion_robustness (er : List ℚ) (cov pinvC : List (List ℚ)) (ra : ℚ) (lo : Bool)
    (hshape : cov.length = er.length ∧ ∀ row ∈ cov, row.length = er.length) :
    Optimizer.mean_variance_optimize er cov pinvC ra lo =
      Except.ok (Optimizer.mvo_weights er pinvC ra lo) ∧
    (∀ c w v ra2 tau2 os2 : ℚ, tau2 * c = 0 →
      BLM.black_litterman c w v ra2 tau2 os2 = none) := by
  constructor
  · unfold Optimizer.mean_variance_optimize
    exact if_pos ⟨hshape.1, hshape.2⟩
  · intro c w v ra2 tau2 os2 hz
    simp [BLM.black_litterman, BLM.inv1, hz]

/-- Closed witness for C9's amended theorem at the singular covariance
`[[0]]`. -/
theorem inversion_robustness_witness :
    (([[(0 : ℚ)]] : List (List ℚ)).length = [(1 : ℚ)].length ∧
      ∀ row ∈ ([[(0 : ℚ)]] : List (List ℚ)), row.length = [(1 : ℚ)].length) ∧
    (Optimizer.mean_variance_optimize [1] [[0]] [[0]] 3 true =
      Except.ok (Optimizer.mvo_weights [1] [[0]] 3 true) ∧
    (∀ c w v ra2 tau2 os2 : ℚ, tau2 * c = 0 →
      BLM.black_litterman c w v ra2 tau2 os2 = none)) :=
  ⟨by norm_num, inversion_robustness [1] [[0]] [[0]] 3 true (by norm_num)⟩

theorem dfind_eraseKey_ne {α : Type} {u t : String} (h : u ≠ t) (m : List (String × α)) :
    dfind u (eraseKey t m) = dfind u m := by
  induction m with
  | nil => rfl
  | cons e rest ih =>
    by_cases he : e.1 = t
    · rw [show eraseKey t (e :: rest) = rest by simp [eraseKey, he]]
      show _ = (if e.1 = u then some e.2 else dfind u rest)
      rw [if_neg (by rw [he]; exact Ne.symm h)]
    · rw [show eraseKey t (e :: rest) = e :: eraseKey t rest by simp [eraseKey, he]]
      show (if e.1 = u then some e.2 else dfind u (eraseKey t rest)) = _
      rw [ih]
      rfl

theorem keysOf_eraseKey_subset {α : Type} {u t : String} {m : List (String × α)}
    (h : u ∈ keysOf (eraseKey t m)) : u ∈ keysOf m := by
  induction m with
  | nil => exact absurd h (by simp [eraseKey, keysOf])
  | cons e rest ih =>
    by_cases he : e.1 = t
    · rw [show eraseKey t (e :: rest) = rest by simp [eraseKey, he]] at h
      rw [show keysOf (e :: rest) = e.1 :: keysOf rest from rfl]
      exact List.mem_cons_of_mem _ h
    · rw [show eraseKey t (e :: rest) = e :: eraseKey t rest by simp [eraseKey, he]] at h
      rw [show keysOf (e :: eraseKey t rest) = e.1 :: keysOf (eraseKey t rest) from rfl] at h
      rw [show keysOf (e :: rest) = e.1 :: keysOf rest from rfl]
      rcases List.mem_cons.1 h with h1 | h1
      · exact List.mem_cons.2 (Or.inl h1)
      · exact List.mem_cons_of_mem _ (ih h1)

theorem keysOf_eraseKey_nodup {α : Type} {t : String} {m : List (String × α)}
    (h : (keysOf m).Nodup) : (keysOf (eraseKey t m)).Nodup := by
  induction m with
  | nil => simp [eraseKey, keysOf]
  | cons e rest ih =>
    rw [show keysOf (e :: rest) = e.1 :: keysOf rest from rfl, List.nodup_cons] at h
    by_cases he : e.1 = t
    · rw [show eraseKey t (e :: rest) = rest by simp [eraseKey, he]]
      exact h.2
    · rw [show eraseKey t (e :: rest) = e :: eraseKey t rest by simp [eraseKey, he]]
      rw [show keysOf (e :: eraseKey t rest) = e.1 :: keysOf (eraseKey t rest) from rfl,
        List.nodup_cons]
      exact ⟨fun hm => h.1 (keysOf_eraseKey_subset hm), ih h.2⟩

theorem not_mem_keysOf_eraseKey {α : Type} {t : String} {m : List (String × α)}
    (h : (keysOf m).Nodup) : t ∉ keysOf (eraseKey t m) := by
  induction m with
  | nil => simp [eraseKey, keysOf]
  | cons e rest ih =>
    rw [show keysOf (e :: rest) = e.1 :: keysOf rest from rfl, List.nodup_cons] at h
    by_cases he : e.1 = t
    · rw [show eraseKey t (e :: rest) = rest by simp [eraseKey, he]]
      rw [← he]
      exact h.1
    · rw [show eraseKey t (e :: rest) = e :: eraseKey t rest by simp [eraseKey, he]]
      rw [show keysOf (e :: eraseKey t rest) = e.1 :: keysOf (eraseKey t rest) from rfl]
      intro hmem
      rcases List.mem_cons.1 hmem with h1 | h1
      · exact he h1.symm
      · exact ih h.2 h1

theorem pval_eraseKey {prices : Prices} {t : String} {m : List (String × Holding)} {h : Holding}
    (hnd : (keysOf m).Nodup) (hdf : dfind t m = some h) :
    pval prices m = (h.totalAmount : ℚ) * pget prices t h.last_price + pval prices (eraseKey t m) := by
  induction m with
  | nil => simp [dfind] at hdf
  | cons e rest ih =>
    rw [show keysOf (e :: rest) = e.1 :: keysOf rest from rfl, List.nodup_cons] at hnd
    by_cases he : e.1 = t
    · rw [show eraseKey t (e :: rest) = rest by simp [eraseKey, he]]
      have hh : e.2 = h := by
        have := hdf
        rw [show dfind t (e :: rest) = if e.1 = t then some e.2 else dfind t rest from rfl,
          if_pos he] at this
        exact Option.some_injective _ this
      rw [show pval prices (e :: rest) =
          (e.2.totalAmount : ℚ) * pget prices e.1 e.2.last_price + pval prices rest by
        simp [pval]]
      rw [hh, he]
    · rw [show eraseKey t (e :: rest) = e :: eraseKey t rest by simp [eraseKey, he]]
      have hdf2 : dfind t rest = some h := by
        have := hdf
        rw [show dfind t (e :: rest) = if e.1 = t then some e.2 else dfind t rest from rfl,
          if_neg he] at this
        exact this
      rw [show pval prices (e :: rest) =
          (e.2.totalAmount : ℚ) * pget prices e.1 e.2.last_price + pval prices rest by
        simp [pval]]
      rw [show pval prices (e :: eraseKey t rest) =
          (e.2.totalAmount : ℚ) * pget prices e.1 e.2.last_price +
            pval prices (eraseKey t rest) by simp [pval]]
      rw [ih hnd.2 hdf2]
      ring

theorem contrib_eraseKey {prices : Prices} {u t : String} (h : u ≠ t)
    (m : List (String × Holding)) :
    contrib (eraseKey t m) prices u = contrib m prices u := by
  unfold contrib
  rw [dfind_eraseKey_ne h]

theorem sum_contrib (prices : Prices) :
    ∀ (tickers : List String) (P0 : List (String × Holding)),
    tickers.Nodup → (keysOf P0).Nodup → (∀ u ∈ keysOf P0, u ∈ tickers) →
    (tickers.map (contrib P0 prices)).sum = pval prices P0 := by
  intro tickers
  induction tickers with
  | nil =>
    intro P0 _ _ hsub
    have hP0 : P0 = [] := by
      cases P0 with
      | nil => rfl
      | cons e rest => exact absurd (hsub e.1 (by simp [keysOf])) (List.not_mem_nil e.1)
    rw [hP0]
    simp [pval]
  | cons t rest ih =>
    intro P0 hnd hP0 hsub
    rw [List.nodup_cons] at hnd
    rw [List.map_cons, List.sum_cons]
    cases hdf : dfind t P0 with
    | none =>
      have ht : t ∉ keysOf P0 := (dfind_eq_none_iff t P0).1 hdf
      have hc : contrib P0 prices t = 0 := by
        unfold contrib
        rw [hdf]
      have hsub2 : ∀ u ∈ keysOf P0, u ∈ rest := by
        intro u hu
        rcases List.mem_cons.1 (hsub u hu) with h1 | h1
        · exact absurd (h1 ▸ hu) ht
        · exact h1
      rw [hc, ih P0 hnd.2 hP0 hsub2, zero_add]
    | some h =>
      have hc : contrib P0 prices t = (h.totalAmount : ℚ) * pget prices t h.last_price := by
        unfold contrib
        rw [hdf]
      have hmap : rest.map (contrib P0 prices) = rest.map (contrib (eraseKey t P0) prices) := by
        refine List.map_congr_left ?_
        intro u hu
        exact (contrib_eraseKey (fun hh => hnd.1 (by rw [← hh]; exact hu)) P0).symm
      have hsub2 : ∀ u ∈ keysOf (eraseKey t P0), u ∈ rest := by
        intro u hu
        rcases List.mem_cons.1 (hsub u (keysOf_eraseKey_subset hu)) with h1 | h1
        · exact absurd (h1 ▸ hu) (not_mem_keysOf_eraseKey hP0)
        · exact h1
      rw [hc, hmap, ih (eraseKey t P0) hnd.2 (keysOf_eraseKey_nodup hP0) hsub2]
      rw [pval_eraseKey hP0 hdf]

theorem pval_snoc (prices : Prices) (m : List (String × Holding)) (t : String) (v : Holding) :
    pval prices (m ++ [(t, v)]) =
      pval prices m + (v.totalAmount : ℚ) * pget prices t v.last_price := by
  simp [pval]

theorem keysOf_snoc {α : Type} (m : List (String × α)) (t : String) (v : α) :
    keysOf (m ++ [(t, v)]) = keysOf m ++ [t] := by
  simp [keysOf]

theorem atw_step_equity (P0 : List (String × Holding)) (prices : Prices)
    (st : AtwState) (p : String × ℚ)
    (hkey : p.1 ∉ keysOf st.np) (htd : 0 ≤ p.2) (hq : 0 ≤ qtyOf P0 p.1) :
    (atw_step P0 prices st p).cash + pval prices (atw_step P0 prices st p).np =
      st.cash + pval prices st.np + contrib P0 prices p.1 ∧
    keysOf st.np ⊆ keysOf (atw_step P0 prices st p).np ∧
    keysOf (atw_step P0 prices st p).np ⊆ p.1 :: keysOf st.np ∧
    (dfind p.1 prices = none ∧ 0 < qtyOf P0 p.1 → p.1 ∈ keysOf (atw_step P0 prices st p).np) := by
  by_cases h1 : pget prices p.1 0 ≤ 0
  · by_cases h2 : 0 < qtyOf P0 p.1
    · obtain ⟨h, hdf⟩ : ∃ h, dfind p.1 P0 = some h := by
        cases hdfc : dfind p.1 P0 with
        | none =>
          have : qtyOf P0 p.1 = 0 := by
            unfold qtyOf
            rw [hdfc]
          rw [this] at h2
          exact absurd h2 (lt_irrefl 0)
        | some v => exact ⟨v, rfl⟩
      have hqty : qtyOf P0 p.1 = h.totalAmount := by
        unfold qtyOf
        rw [hdf]
      have hlast : lastOf P0 p.1 = h.last_price := by
        unfold lastOf
        rw [hdf]
      have hcon : contrib P0 prices p.1 = (h.totalAmount : ℚ) * pget prices p.1 h.last_price := by
        unfold contrib
        rw [hdf]
      have hcash : (atw_step P0 prices st p).cash = st.cash := by
        simp only [atw_step]
        rw [if_pos h1, if_pos h2]
      have hnp : (atw_step P0 prices st p).np = st.np ++
          [(p.1, ({ totalAmount := qtyOf P0 p.1,
                    last_price := if 0 < pget prices p.1 0 then pget prices p.1 0
                      else lastOf P0 p.1,
                    entry_price := entryOf P0 p.1 } : Holding))] := by
        simp only [atw_step]
        rw [if_pos h1, if_pos h2]
        exact dictInsert_eq_append hkey _
      refine ⟨?_, ?_, ?_, ?_⟩
      · rw [hcash, hnp, pval_snoc, hcon]
        show st.cash + (pval prices st.np +
          (qtyOf P0 p.1 : ℚ) * pget prices p.1
            (if 0 < pget prices p.1 0 then pget prices p.1 0 else lastOf P0 p.1)) = _
        rw [if_neg (not_lt.2 h1), hlast, hqty]
        ring
      · rw [hnp, keysOf_snoc]
        intro a ha
        exact List.mem_append.2 (Or.inl ha)
      · rw [hnp, keysOf_snoc]
        intro a ha
        rcases List.mem_append.1 ha with ha | ha
        · exact List.mem_cons_of_mem _ ha
        · rw [List.mem_singleton.1 ha]
          exact List.mem_cons_self _ _
      · intro _
        rw [hnp, keysOf_snoc]
        exact List.mem_append.2 (Or.inr (List.mem_singleton.2 rfl))
    · have hcon : contrib P0 prices p.1 = 0 := by
        unfold contrib
        cases hdfc : dfind p.1 P0 with
        | none => rfl
        | some h =>
          have : qtyOf P0 p.1 = h.totalAmount := by
            unfold qtyOf
            rw [hdfc]
          have hz : h.totalAmount = 0 := by omega
          show (h.totalAmount : ℚ) * pget prices p.1 h.last_price = 0
          rw [hz]
          simp
      have hstep : atw_step P0 prices st p = st := by
        simp only [atw_step]
        rw [if_pos h1, if_neg h2]
      rw [hstep, hcon]
      refine ⟨by ring, fun a ha => ha, fun a ha => List.mem_cons_of_mem _ ha, ?_⟩
      intro hh
      exact absurd hh.2 h2
  · have hpx : 0 < pget prices p.1 0 := not_le.1 h1
    obtain ⟨v, hdfp⟩ : ∃ v, dfind p.1 prices = some v := by
      cases hdfc : dfind p.1 prices with
      | none =>
        have : pget prices p.1 0 = 0 := by
          unfold pget
          rw [hdfc]
          rfl
        rw [this] at hpx
        exact absurd hpx (lt_irrefl 0)
      | some v => exact ⟨v, rfl⟩
    have hpgetAll : ∀ d, pget prices p.1 d = pget prices p.1 0 := by
      intro d
      unfold pget
      rw [hdfp]
      rfl
    have hcon : contrib P0 prices p.1 = (qtyOf P0 p.1 : ℚ) * pget prices p.1 0 := by
      unfold contrib qtyOf
      cases hdfc : dfind p.1 P0 with
      | none => simp
      | some h =>
        show (h.totalAmount : ℚ) * pget prices p.1 h.last_price = _
        rw [hpgetAll h.last_price]
    have htq : 0 ≤ ⌊p.2 / pget prices p.1 0⌋ :=
      Int.floor_nonneg.2 (div_nonneg htd (le_of_lt hpx))
    have hcash : (atw_step P0 prices st p).cash =
        st.cash - ((⌊p.2 / pget prices p.1 0⌋ - qtyOf P0 p.1 : Int) : ℚ) * pget prices p.1 0 := by
      simp only [atw_step]
      rw [if_neg h1]
    by_cases h2 : 0 < ⌊p.2 / pget prices p.1 0⌋
    · have hpv : pval prices (atw_step P0 prices st p).np =
          pval prices st.np + (⌊p.2 / pget prices p.1 0⌋ : ℚ) * pget prices p.1 0 := by
        simp only [atw_step]
        rw [if_neg h1]
        show pval prices
          (if 0 < ⌊p.2 / pget prices p.1 0⌋ then dictInsert p.1 _ st.np else st.np) = _
        rw [if_pos h2, dictInsert_eq_append hkey, pval_snoc]
        show pval prices st.np +
          (⌊p.2 / pget prices p.1 0⌋ : ℚ) * pget prices p.1 (pget prices p.1 0) = _
        rw [hpgetAll (pget prices p.1 0)]
      have hks : keysOf (atw_step P0 prices st p).np = keysOf st.np ++ [p.1] := by
        simp only [atw_step]
        rw [if_neg h1]
        show keysOf
          (if 0 < ⌊p.2 / pget prices p.1 0⌋ then dictInsert p.1 _ st.np else st.np) = _
        rw [if_pos h2, dictInsert_eq_append hkey, keysOf_snoc]
      refine ⟨?_, ?_, ?_, ?_⟩
      · rw [hcash, hpv, hcon]
        push_cast
        ring
      · rw [hks]
        intro a ha
        exact List.mem_append.2 (Or.inl ha)
      · rw [hks]
        intro a ha
        rcases List.mem_append.1 ha with ha | ha
        · exact List.mem_cons_of_mem _ ha
        · rw [List.mem_singleton.1 ha]
          exact List.mem_cons_self _ _
      · intro hh
        rw [hdfp] at hh
        exact absurd hh.1 (by simp)
    · have htq0 : ⌊p.2 / pget prices p.1 0⌋ = 0 := by omega
      have hnp : (atw_step P0 prices st p).np = st.np := by
        simp only [atw_step]
        rw [if_neg h1]
        show (if 0 < ⌊p.2 / pget prices p.1 0⌋ then _ else st.np) = _
        rw [if_neg h2]
      refine ⟨?_, ?_, ?_, ?_⟩
      · rw [hcash, hnp, hcon, htq0]
        push_cast
        ring
      · rw [hnp]
        exact fun a ha => ha
      · rw [hnp]
        exact fun a ha => List.mem_cons_of_mem _ ha
      · intro hh
        rw [hdfp] at hh
        exact absurd hh.1 (by simp)

theorem atw_loop_equity (P0 : List (String × Holding)) (prices : Prices) :
    ∀ (l : List (String × ℚ)) (st : AtwState),
    (l.map Prod.fst).Nodup →
    (∀ p ∈ l, p.1 ∉ keysOf st.np) →
    (∀ p ∈ l, 0 ≤ p.2) →
    (∀ p ∈ l, 0 ≤ qtyOf P0 p.1) →
    (l.foldl (atw_step P0 prices) st).cash + pval prices (l.foldl (atw_step P0 prices) st).np =
      st.cash + pval prices st.np + (l.map (fun p => contrib P0 prices p.1)).sum ∧
    keysOf st.np ⊆ keysOf (l.foldl (atw_step P0 prices) st).np ∧
    (∀ p ∈ l, dfind p.1 prices = none ∧ 0 < qtyOf P0 p.1 →
      p.1 ∈ keysOf (l.foldl (atw_step P0 prices) st).np) := by
  intro l
  induction l with
  | nil =>
    intro st _ _ _ _
    refine ⟨by simp, fun a ha => ha, ?_⟩
    intro p hp
    exact absurd hp (List.not_mem_nil p)
  | cons p rest ih =>
    intro st hnd hkeys htd hq
    rw [List.map_cons, List.nodup_cons] at hnd
    have hstep := atw_step_equity P0 prices st p (hkeys p (List.mem_cons_self p rest))
      (htd p (List.mem_cons_self p rest)) (hq p (List.mem_cons_self p rest))
    have hkeys2 : ∀ p2 ∈ rest, p2.1 ∉ keysOf (atw_step P0 prices st p).np := by
      intro p2 hp2 hmem
      rcases List.mem_cons.1 (hstep.2.2.1 hmem) with hcs | hcs
      · exact hnd.1 (hcs ▸ List.mem_map_of_mem Prod.fst hp2)
      · exact hkeys p2 (List.mem_cons_of_mem _ hp2) hcs
    have hih := ih (atw_step P0 prices st p) hnd.2 hkeys2
      (fun x hx => htd x (List.mem_cons_of_mem _ hx))
      (fun x hx => hq x (List.mem_cons_of_mem _ hx))
    rw [List.foldl_cons]
    refine ⟨?_, ?_, ?_⟩
    · rw [hih.1, hstep.1, List.map_cons, List.sum_cons]
      ring
    · exact fun a ha => hih.2.1 (hstep.2.1 ha)
    · intro p2 hp2 hcond
      rcases List.mem_cons.1 hp2 with hcs | hcs
      · rw [hcs]
        exact hih.2.1 (hstep.2.2.2 (by rw [← hcs]; exact hcond))
      · exact hih.2.2 p2 hcs hcond

theorem carry_equity (prices : Prices) :
    ∀ (l : List (String × Holding)) (acc : List (String × Holding)),
    (∀ e ∈ l, dfind e.1 prices = none → 0 < e.2.totalAmount → e.1 ∈ keysOf acc) →
    (∀ e ∈ l, 0 ≤ e.2.totalAmount) →
    pval prices (l.foldl (fun acc e =>
      if e.1 ∉ keysOf acc ∧ dfind e.1 prices = none then dictInsert e.1 e.2 acc else acc) acc) =
      pval prices acc := by
  intro l
  induction l with
  | nil => intro acc _ _; rfl
  | cons b rest ih =>
    intro acc hmem hq
    rw [List.foldl_cons]
    by_cases hc : b.1 ∉ keysOf acc ∧ dfind b.1 prices = none
    · rw [if_pos hc]
      have hq0 : b.2.totalAmount = 0 := by
        by_cases hpos : 0 < b.2.totalAmount
        · exact absurd (hmem b (List.mem_cons_self b rest) hc.2 hpos) hc.1
        · have := hq b (List.mem_cons_self b rest)
          omega
      have hpv : pval prices (dictInsert b.1 b.2 acc) = pval prices acc := by
        rw [dictInsert_eq_append hc.1, pval_snoc, hq0]
        simp
      have hks : ∀ u ∈ keysOf acc, u ∈ keysOf (dictInsert b.1 b.2 acc) := by
        intro u hu
        exact (mem_keysOf_dictInsert u b.1 b.2 acc).2 (Or.inr hu)
      rw [ih (dictInsert b.1 b.2 acc)
        (fun e he h1 h2 => hks e.1 (hmem e (List.mem_cons_of_mem _ he) h1 h2))
        (fun e he => hq e (List.mem_cons_of_mem _ he))]
      exact hpv
    · rw [if_neg hc]
      exact ih acc (fun e he h1 h2 => hmem e (List.mem_cons_of_mem _ he) h1 h2)
        (fun e he => hq e (List.mem_cons_of_mem _ he))

theorem atw_assembled (prices : Prices) (P0 : List (String × Holding)) (cash0 : ℚ)
    (l : List (String × ℚ))
    (hnd : (l.map Prod.fst).Nodup)
    (htd : ∀ p ∈ l, 0 ≤ p.2)
    (hq5 : ∀ e ∈ P0, 0 ≤ e.2.totalAmount)
    (hP0nd : (keysOf P0).Nodup)
    (hsub : ∀ u ∈ keysOf P0, u ∈ l.map Prod.fst) :
    (l.foldl (atw_step P0 prices) { np := [], cash := cash0, changes := [] }).cash +
      pval prices (P0.foldl (fun acc e =>
        if e.1 ∉ keysOf acc ∧ dfind e.1 prices = none then dictInsert e.1 e.2 acc else acc)
        (l.foldl (atw_step P0 prices) { np := [], cash := cash0, changes := [] }).np) =
      cash0 + pval prices P0 := by
  have hloop := atw_loop_equity P0 prices l { np := [], cash := cash0, changes := [] } hnd
    (fun p _ hmem => absurd hmem (by simp [keysOf]))
    htd (fun p _ => qtyOf_nonneg hq5 p.1)
  have hpost : ∀ e ∈ P0, dfind e.1 prices = none → 0 < e.2.totalAmount →
      e.1 ∈ keysOf (l.foldl (atw_step P0 prices) { np := [], cash := cash0, changes := [] }).np := by
    intro e he hdfn hqe
    obtain ⟨p, hp, hpe⟩ := List.mem_map.1 (hsub e.1 (List.mem_map_of_mem Prod.fst he))
    have hq2 : 0 < qtyOf P0 p.1 := by
      rw [hpe]
      unfold qtyOf
      rw [dfind_of_mem_nodup hP0nd (show (e.1, e.2) ∈ P0 by simpa using he)]
      exact hqe
    have := hloop.2.2 p hp ⟨by rw [hpe]; exact hdfn, hq2⟩
    rw [hpe] at this
    exact this
  rw [carry_equity prices P0 _ hpost hq5]
  rw [hloop.1]
  have hsum : (l.map (fun p => contrib P0 prices p.1)).sum =
      ((l.map Prod.fst).map (contrib P0 prices)).sum := by
    rw [List.map_map]
    rfl
  rw [hsum, sum_contrib prices (l.map Prod.fst) P0 hnd hP0nd hsub]
  show cash0 + pval prices [] + pval prices P0 = cash0 + pval prices P0
  rw [show pval prices [] = 0 from rfl]
  ring

theorem equityAt_update (prices : Prices) (s : Snapshot) :
    equityAt prices (update_snapshot_prices s prices) = s.cash + pval prices s.portfolio := by
  unfold equityAt
  rw [pval_update]
  rfl

theorem correction_equity_bound (init : ℚ) (prices : Prices)
    (np : List (String × Holding)) (cash : ℚ) :
    |equityAt prices
      (if 1 / 1000000 <
          |init - (compute_market_value (update_snapshot_prices
              { portfolio := np, cash := cash } prices) + cash)| then
        { portfolio := (update_snapshot_prices { portfolio := np, cash := cash } prices).portfolio,
          cash := cash + (init - (compute_market_value (update_snapshot_prices
            { portfolio := np, cash := cash } prices) + cash)) }
      else update_snapshot_prices { portfolio := np, cash := cash } prices) - init|
      ≤ 1 / 1000000 := by
  have hmv : compute_market_value (update_snapshot_prices { portfolio := np, cash := cash } prices)
      = pval prices np := compute_market_value_update _ _
  have hpv : pval prices
      (update_snapshot_prices { portfolio := np, cash := cash } prices).portfolio
      = pval prices np := pval_update { portfolio := np, cash := cash } prices
  by_cases hc : 1 / 1000000 <
      |init - (compute_market_value (update_snapshot_prices
        { portfolio := np, cash := cash } prices) + cash)|
  · rw [if_pos hc]
    unfold equityAt
    show |cash + (init - (compute_market_value (update_snapshot_prices
        { portfolio := np, cash := cash } prices) + cash)) +
      pval prices (update_snapshot_prices { portfolio := np, cash := cash } prices).portfolio
      - init| ≤ 1 / 1000000
    rw [hmv, hpv]
    rw [show cash + (init - (pval prices np + cash)) + pval prices np - init = 0 by ring]
    simp
  · rw [if_neg hc]
    rw [equityAt_update]
    show |cash + pval prices np - init| ≤ 1 / 1000000
    rw [hmv] at hc
    rw [show cash + pval prices np - init = -(init - (pval prices np + cash)) by ring, abs_neg]
    exact not_lt.1 hc

theorem ite_fst {c : Prop} [Decidable c] {x y : Snapshot × List (String × Int × Int)} :
    (if c then x else y).1 = if c then x.1 else y.1 := by
  split
  · rfl
  · rfl

theorem pap_equity_abs_bound (snap : Snapshot) (prices : Prices) (pw : List (String × ℚ)) :
    |equityAt prices (apply_partial_target_weights snap prices pw).1 - equityAt prices snap|
      ≤ 1 / 1000000 := by
  rw [← pap_initial_equity_eq snap prices]
  have hsplit : (apply_partial_target_weights snap prices pw).1 =
      (if (1 : ℚ) / 1000000 <
          |pap_initial_equity snap prices -
            (compute_market_value (update_snapshot_prices
              { portfolio := (pap_pre_correction snap prices pw).1,
                cash := (pap_pre_correction snap prices pw).2.1 } prices) +
             (pap_pre_correction snap prices pw).2.1)| then
        { portfolio := (update_snapshot_prices
            { portfolio := (pap_pre_correction snap prices pw).1,
              cash := (pap_pre_correction snap prices pw).2.1 } prices).portfolio,
          cash := (pap_pre_correction snap prices pw).2.1 +
            (pap_initial_equity snap prices -
              (compute_market_value (update_snapshot_prices
                { portfolio := (pap_pre_correction snap prices pw).1,
                  cash := (pap_pre_correction snap prices pw).2.1 } prices) +
               (pap_pre_correction snap prices pw).2.1)) }
      else update_snapshot_prices
        { portfolio := (pap_pre_correction snap prices pw).1,
          cash := (pap_pre_correction snap prices pw).2.1 } prices) := by
    unfold apply_partial_target_weights
    exact ite_fst
  rw [hsplit]
  exact correction_equity_bound (pap_initial_equity snap prices) prices _ _

theorem update_nonneg {s : Snapshot} {prices : Prices}
    (h : ∀ e ∈ s.portfolio, 0 ≤ e.2.totalAmount) :
    ∀ e ∈ (update_snapshot_prices s prices).portfolio, 0 ≤ e.2.totalAmount := by
  intro e he
  obtain ⟨x, hx, rfl⟩ := List.mem_map.1 he
  exact h x hx

theorem atw_step_nonneg (P0 : List (String × Holding)) (prices : Prices)
    (st : AtwState) (p : String × ℚ)
    (hst : ∀ e ∈ st.np, 0 ≤ e.2.totalAmount) :
    ∀ e ∈ (atw_step P0 prices st p).np, 0 ≤ e.2.totalAmount := by
  intro e he
  simp only [atw_step] at he
  by_cases h1 : pget prices p.1 0 ≤ 0
  · rw [if_pos h1] at he
    by_cases h2 : 0 < qtyOf P0 p.1
    · rw [if_pos h2] at he
      exact entries_dictInsert_qty hst h2.le p.1 e he
    · rw [if_neg h2] at he
      exact hst e he
  · rw [if_neg h1] at he
    by_cases h2 : 0 < ⌊p.2 / pget prices p.1 0⌋
    · rw [if_pos h2] at he
      exact entries_dictInsert_qty hst h2.le p.1 e he
    · rw [if_neg h2] at he
      exact hst e he

theorem atw_loop_nonneg (P0 : List (String × Holding)) (prices : Prices) :
    ∀ (l : List (String × ℚ)) (st : AtwState),
    (∀ e ∈ st.np, 0 ≤ e.2.totalAmount) →
    ∀ e ∈ (l.foldl (atw_step P0 prices) st).np, 0 ≤ e.2.totalAmount := by
  intro l
  induction l with
  | nil => intro st h; exact h
  | cons p rest ih =>
    intro st h
    rw [List.foldl_cons]
    exact ih _ (atw_step_nonneg P0 prices st p h)

theorem carry_nonneg (prices : Prices) :
    ∀ (l : List (String × Holding)) (acc : List (String × Holding)),
    (∀ e ∈ l, 0 ≤ e.2.totalAmount) → (∀ e ∈ acc, 0 ≤ e.2.totalAmount) →
    ∀ e ∈ l.foldl (fun acc e =>
        if e.1 ∉ keysOf acc ∧ dfind e.1 prices = none then dictInsert e.1 e.2 acc else acc) acc,
      0 ≤ e.2.totalAmount := by
  intro l
  induction l with
  | nil => intro acc _ hacc; exact hacc
  | cons b rest ih =>
    intro acc hl hacc
    rw [List.foldl_cons]
    refine ih _ (fun x hx => hl x (List.mem_cons_of_mem _ hx)) ?_
    by_cases hc : b.1 ∉ keysOf acc ∧ dfind b.1 prices = none
    · rw [if_pos hc]
      exact entries_dictInsert_qty hacc (hl b (List.mem_cons_self b rest)) b.1
    · rw [if_neg hc]
      exact hacc

theorem buys_nonneg (scale : ℚ) :
    ∀ (l : List BuyReq) (st : BuyState),
    (∀ e ∈ st.np, 0 ≤ e.2.totalAmount) →
    ∀ e ∈ (l.foldl (pap_buy_step scale) st).np, 0 ≤ e.2.totalAmount := by
  intro l
  induction l with
  | nil => intro st h; exact h
  | cons r rest ih =>
    intro st h
    rw [List.foldl_cons]
    refine ih _ ?_
    intro e he
    simp only [pap_buy_step] at he
    by_cases hb : pyTrunc ((r.need_q : ℚ) * scale) ≤ 0
    · rw [if_pos hb] at he
      exact h e he
    · rw [if_neg hb] at he
      refine entries_dictInsert_qty h ?_ r.t e he
      show 0 ≤ qtyOf st.np r.t + pyTrunc ((r.need_q : ℚ) * scale)
      have h1 := qtyOf_nonneg h r.t
      have h2 := not_le.1 hb
      omega

theorem unwind_shares_nonneg (t : String) (px : ℚ) :
    ∀ (n : Nat) (st : List (String × Holding) × ℚ),
    (∀ e ∈ st.1, 0 ≤ e.2.totalAmount) →
    ∀ e ∈ (unwind_shares t px n st).1, 0 ≤ e.2.totalAmount := by
  intro n
  induction n with
  | zero => intro st h; exact h
  | succ n ih =>
    intro st h
    simp only [unwind_shares]
    by_cases h1 : st.2 < 0
    · rw [if_pos h1]
      by_cases h2 : qtyOf st.1 t ≤ 0
      · rw [if_pos h2]
        exact h
      · rw [if_neg h2]
        refine ih _ ?_
        refine entries_dictInsert_qty h ?_ t
        show 0 ≤ qtyOf st.1 t - 1
        have h3 := not_le.1 h2
        omega
    · rw [if_neg h1]
      exact h

theorem unwind_fold_nonneg :
    ∀ (l : List (String × Int × ℚ)) (st : List (String × Holding) × ℚ),
    (∀ e ∈ st.1, 0 ≤ e.2.totalAmount) →
    ∀ e ∈ (l.foldl pap_unwind_step st).1, 0 ≤ e.2.totalAmount := by
  intro l
  induction l with
  | nil => intro st h; exact h
  | cons b rest ih =>
    intro st h
    rw [List.foldl_cons]
    refine ih _ ?_
    unfold pap_unwind_step
    by_cases h1 : 0 ≤ st.2
    · rw [if_pos h1]
      exact h
    · rw [if_neg h1]
      exact unwind_shares_nonneg b.1 b.2.2 b.2.1.toNat st h

theorem filter_nonneg {np : List (String × Holding)}
    (h : ∀ e ∈ np, 0 ≤ e.2.totalAmount) (p : String × Holding → Bool) :
    ∀ e ∈ np.filter p, 0 ≤ e.2.totalAmount :=
  fun e he => h e (List.mem_of_mem_filter he)

theorem filter_keys_nodup {np : List (String × Holding)}
    (h : (keysOf np).Nodup) (p : String × Holding → Bool) :
    (keysOf (np.filter p)).Nodup :=
  ((List.filter_sublist np).map Prod.fst).nodup h

theorem buys_keys_nodup (scale : ℚ) :
    ∀ (l : List BuyReq) (st : BuyState),
    (keysOf st.np).Nodup → (keysOf (l.foldl (pap_buy_step scale) st).np).Nodup := by
  intro l
  induction l with
  | nil => intro st h; exact h
  | cons r rest ih =>
    intro st h
    rw [List.foldl_cons]
    refine ih _ ?_
    simp only [pap_buy_step]
    by_cases hb : pyTrunc ((r.need_q : ℚ) * scale) ≤ 0
    · rw [if_pos hb]
      exact h
    · rw [if_neg hb]
      exact keysOf_dictInsert_nodup _ _ _ h

theorem unwind_shares_keys_nodup (t : String) (px : ℚ) :
    ∀ (n : Nat) (st : List (String × Holding) × ℚ),
    (keysOf st.1).Nodup → (keysOf (unwind_shares t px n st).1).Nodup := by
  intro n
  induction n with
  | zero => intro st h; exact h
  | succ n ih =>
    intro st h
    simp only [unwind_shares]
    by_cases h1 : st.2 < 0
    · rw [if_pos h1]
      by_cases h2 : qtyOf st.1 t ≤ 0
      · rw [if_pos h2]
        exact h
      · rw [if_neg h2]
        exact ih _ (keysOf_dictInsert_nodup _ _ _ h)
    · rw [if_neg h1]
      exact h

theorem unwind_fold_keys_nodup :
    ∀ (l : List (String × Int × ℚ)) (st : List (String × Holding) × ℚ),
    (keysOf st.1).Nodup → (keysOf (l.foldl pap_unwind_step st).1).Nodup := by
  intro l
  induction l with
  | nil => intro st h; exact h
  | cons b rest ih =>
    intro st h
    rw [List.foldl_cons]
    refine ih _ ?_
    unfold pap_unwind_step
    by_cases h1 : 0 ≤ st.2
    · rw [if_pos h1]
      exact h
    · rw [if_neg h1]
      exact unwind_shares_keys_nodup b.1 b.2.2 b.2.1.toNat st h

theorem sell_candidates_keys_sublist (prices : Prices) :
    ∀ (np : List (String × Holding)),
    ((sell_candidates prices np).map SellCand.t).Sublist (keysOf np) := by
  intro np
  induction np with
  | nil => simp [sell_candidates, keysOf]
  | cons e rest ih =>
    by_cases h1 : e.2.totalAmount ≤ 0
    · have hsc : sell_candidates prices (e :: rest) = sell_candidates prices rest := by
        simp only [sell_candidates, List.filterMap_cons, if_pos h1]
      rw [hsc]
      exact ih.cons e.1
    · by_cases h2 : pget prices e.1 e.2.last_price ≤ 0
      · have hsc : sell_candidates prices (e :: rest) = sell_candidates prices rest := by
          simp only [sell_candidates, List.filterMap_cons, if_neg h1, if_pos h2]
        rw [hsc]
        exact ih.cons e.1
      · have hsc : sell_candidates prices (e :: rest) =
            { t := e.1, qty := e.2.totalAmount, px := pget prices e.1 e.2.last_price,
              mv := (e.2.totalAmount : ℚ) * pget prices e.1 e.2.last_price } ::
            sell_candidates prices rest := by
          simp only [sell_candidates, List.filterMap_cons, if_neg h1, if_neg h2]
        rw [hsc, List.map_cons]
        exact ih.cons₂ e.1

theorem sell_candidates_qty (prices : Prices) (np : List (String × Holding))
    (hnd : (keysOf np).Nodup) :
    ∀ c ∈ sell_candidates prices np, qtyOf np c.t = c.qty := by
  intro c hc
  obtain ⟨e, he, hfe⟩ := List.mem_filterMap.1 hc
  by_cases h1 : e.2.totalAmount ≤ 0
  · rw [if_pos h1] at hfe
    exact absurd hfe (by simp)
  · rw [if_neg h1] at hfe
    by_cases h2 : pget prices e.1 e.2.last_price ≤ 0
    · rw [if_pos h2] at hfe
      exact absurd hfe (by simp)
    · rw [if_neg h2] at hfe
      obtain rfl := Option.some_injective _ hfe
      show qtyOf np e.1 = e.2.totalAmount
      unfold qtyOf
      rw [dfind_of_mem_nodup hnd (show (e.1, e.2) ∈ np by simpa using he)]

theorem emergency_fold_nonneg :
    ∀ (cs : List SellCand) (st : List (String × Holding) × ℚ × ℚ × List (String × Int × Int)),
    (cs.map SellCand.t).Nodup →
    (∀ c ∈ cs, qtyOf st.1 c.t = c.qty) →
    (∀ e ∈ st.1, 0 ≤ e.2.totalAmount) →
    ∀ e ∈ (cs.foldl emergency_step st).1, 0 ≤ e.2.totalAmount := by
  intro cs
  induction cs with
  | nil => intro st _ _ h; exact h
  | cons c rest ih =>
    intro st hnd hqty hnn
    rw [List.map_cons, List.nodup_cons] at hnd
    rw [List.foldl_cons]
    by_cases h1 : st.2.2.1 ≤ 0
    · have hstep : emergency_step st c = st := by
        unfold emergency_step
        rw [if_pos h1]
      rw [hstep]
      exact ih st hnd.2 (fun x hx => hqty x (List.mem_cons_of_mem _ hx)) hnn
    · by_cases h2 : min c.qty ⌈st.2.2.1 / c.px⌉ ≤ 0
      · have hstep : emergency_step st c = st := by
          simp only [emergency_step]
          rw [if_neg h1, if_pos h2]
        rw [hstep]
        exact ih st hnd.2 (fun x hx => hqty x (List.mem_cons_of_mem _ hx)) hnn
      · have hstep : emergency_step st c =
            (dictInsert c.t
              ({ totalAmount := qtyOf st.1 c.t - min c.qty ⌈st.2.2.1 / c.px⌉,
                 last_price := c.px, entry_price := entryOf st.1 c.t } : Holding) st.1,
             st.2.1 + ((min c.qty ⌈st.2.2.1 / c.px⌉ : Int) : ℚ) * c.px,
             max 0 (st.2.2.1 - ((min c.qty ⌈st.2.2.1 / c.px⌉ : Int) : ℚ) * c.px),
             st.2.2.2 ++ [(c.t, qtyOf st.1 c.t, qtyOf st.1 c.t - min c.qty ⌈st.2.2.1 / c.px⌉)]) := by
          simp only [emergency_step]
          rw [if_neg h1, if_neg h2]
        rw [hstep]
        have hq : qtyOf st.1 c.t = c.qty := hqty c (List.mem_cons_self c rest)
        refine ih _ hnd.2 ?_ ?_
        · intro c' hc'
          show qtyOf (dictInsert c.t _ st.1) c'.t = c'.qty
          unfold qtyOf
          rw [dfind_dictInsert_ne
            (show c'.t ≠ c.t from fun hh => hnd.1 (hh ▸ List.mem_map_of_mem SellCand.t hc'))]
          exact hqty c' (List.mem_cons_of_mem _ hc')
        · refine entries_dictInsert_qty hnn ?_ c.t
          show 0 ≤ qtyOf st.1 c.t - min c.qty ⌈st.2.2.1 / c.px⌉
          rw [hq]
          have hmin := min_le_left c.qty ⌈st.2.2.1 / c.px⌉
          omega

theorem emergency_sells_nonneg (prices : Prices) (np : List (String × Holding)) (cash : ℚ)
    (hnd : (keysOf np).Nodup) (hnn : ∀ e ∈ np, 0 ≤ e.2.totalAmount) :
    ∀ e ∈ (emergency_sells prices np cash).1, 0 ≤ e.2.totalAmount := by
  intro e he
  unfold emergency_sells at he
  have hmem := (List.mem_filter.1 he).1
  have hperm := sortByDescQ_perm SellCand.mv (sell_candidates prices np)
  have hcnd : ((sell_candidates prices np).map SellCand.t).Nodup :=
    (sell_candidates_keys_sublist prices np).nodup hnd
  have hndt : ((sortByDescQ SellCand.mv (sell_candidates prices np)).map SellCand.t).Nodup :=
    ((hperm.map SellCand.t).nodup_iff).2 hcnd
  have hqt : ∀ c ∈ sortByDescQ SellCand.mv (sell_candidates prices np), qtyOf np c.t = c.qty :=
    fun c hc => sell_candidates_qty prices np hnd c (hperm.mem_iff.1 hc)
  exact emergency_fold_nonneg _ (np, cash, -cash, []) hndt hqt hnn e hmem

theorem pap_pre_nonneg (snap : Snapshot) (prices : Prices) (pw : List (String × ℚ))
    (hnd : (keysOf snap.portfolio).Nodup)
    (hq : ∀ e ∈ snap.portfolio, 0 ≤ e.2.totalAmount) :
    ∀ e ∈ (pap_pre_correction snap prices pw).1, 0 ≤ e.2.totalAmount := by
  have hb_nn : ∀ e ∈ (pap_after_buys snap prices pw).np, 0 ≤ e.2.totalAmount :=
    buys_nonneg _ _ _ hq
  have hb_nd : (keysOf (pap_after_buys snap prices pw).np).Nodup :=
    buys_keys_nodup _ _ _ hnd
  have hu_nn : ∀ e ∈ (pap_after_unwind snap prices pw).1, 0 ≤ e.2.totalAmount := by
    unfold pap_after_unwind
    by_cases hc : (pap_after_buys snap prices pw).cash < 0 ∧
        (pap_after_buys snap prices pw).applied ≠ []
    · rw [if_pos hc]
      exact filter_nonneg (unwind_fold_nonneg _ _ hb_nn) _
    · rw [if_neg hc]
      exact hb_nn
  have hu_nd : (keysOf (pap_after_unwind snap prices pw).1).Nodup := by
    unfold pap_after_unwind
    by_cases hc : (pap_after_buys snap prices pw).cash < 0 ∧
        (pap_after_buys snap prices pw).applied ≠ []
    · rw [if_pos hc]
      exact filter_keys_nodup (unwind_fold_keys_nodup _ _ hb_nd) _
    · rw [if_neg hc]
      exact hb_nd
  unfold pap_pre_correction
  by_cases hc2 : (pap_after_unwind snap prices pw).2 < 0
  · rw [if_pos hc2]
    exact emergency_sells_nonneg prices _ _ hu_nd hu_nn
  · rw [if_neg hc2]
    exact hu_nn

/-- C3: for every starting snapshot with all quantities ≥ 0 (and dict-valid,
duplicate-free keys), every price map and every target-weight input — negative
optimizer weights included — both `apply_target_weights` and
`apply_partial_target_weights` return snapshots in which every holding's
quantity is ≥ 0: a target implying a short never produces a negative quantity. -/
theorem long_only_quantities (snap : Snapshot) (tickers : List String) (prices : Prices)
    (tws : List ℚ) (pw : List (String × ℚ))
    (hnd : (keysOf snap.portfolio).Nodup)
    (hq : ∀ e ∈ snap.portfolio, 0 ≤ e.2.totalAmount) :
    (∀ e ∈ (apply_target_weights snap tickers prices tws).1.portfolio, 0 ≤ e.2.totalAmount) ∧
    (∀ e ∈ (apply_partial_target_weights snap prices pw).1.portfolio, 0 ≤ e.2.totalAmount) := by
  constructor
  · intro e he
    refine update_nonneg ?_ e he
    exact carry_nonneg prices snap.portfolio _ hq
      (atw_loop_nonneg _ _ _ _ (fun x hx => absurd hx (List.not_mem_nil x)))
  · intro e he
    have hporto : (apply_partial_target_weights snap prices pw).1.portfolio =
        (update_snapshot_prices
          { portfolio := (pap_pre_correction snap prices pw).1,
            cash := (pap_pre_correction snap prices pw).2.1 } prices).portfolio := by
      unfold apply_partial_target_weights
      exact ite_fst_portfolio rfl rfl
    rw [hporto] at he
    exact update_nonneg (pap_pre_nonneg snap prices pw hnd hq) e he

/-- Closed witness for C3: snapshot `{A: 2 @ 3, entry 1}`, cash 50, price
`{A: 4}`, full weights `[1/2]` and partial weights `{A: 1/2}`. -/
theorem long_only_quantities_witness :
    ((keysOf [("A", ({ totalAmount := 2, last_price := 3, entry_price := 1 } : Holding))]).Nodup ∧
     (∀ e ∈ [("A", ({ totalAmount := 2, last_price := 3, entry_price := 1 } : Holding))],
       0 ≤ e.2.totalAmount)) ∧
    ((∀ e ∈ (apply_target_weights
        { portfolio := [("A", { totalAmount := 2, last_price := 3, entry_price := 1 })],
          cash := 50 } ["A"] [("A", 4)] [1 / 2]).1.portfolio, 0 ≤ e.2.totalAmount) ∧
     (∀ e ∈ (apply_partial_target_weights
        { portfolio := [("A", { totalAmount := 2, last_price := 3, entry_price := 1 })],
          cash := 50 } [("A", 4)] [("A", 1 / 2)]).1.portfolio, 0 ≤ e.2.totalAmount)) := by
  constructor
  · exact ⟨by decide, by decide⟩
  · exact long_only_quantities
      { portfolio := [("A", { totalAmount := 2, last_price := 3, entry_price := 1 })],
        cash := 50 } ["A"] [("A", 4)] [1 / 2] [("A", 1 / 2)] (by decide) (by decide)

/-- C10: when cash is still ≥ 0 after the scaled buy pass of
`apply_partial_target_weights` (so neither the buy-unwind loop nor the
emergency-sell loop runs), every ticker outside the target subset is framed:
its entry in the returned snapshot is exactly its previous entry with only
`last_price` refreshed from the price map — quantity, entry price and presence
are untouched. -/
theorem partial_rebalance_frame (snap : Snapshot) (prices : Prices)
    (pw : List (String × ℚ)) (t : String)
    (hcash : 0 ≤ (pap_after_buys snap prices pw).cash)
    (ht : t ∉ keysOf pw) :
    dfind t (apply_partial_target_weights snap prices pw).1.portfolio =
      (dfind t snap.portfolio).map
        (fun h => { totalAmount := h.totalAmount,
                    last_price := pget prices t h.last_price,
                    entry_price := h.entry_price }) := by
  have hreqs : ∀ r ∈ pap_buy_reqs snap prices pw, r.t ≠ t := by
    intro r hr heq
    exact ht (heq ▸ pap_buy_reqs_keys snap prices pw r hr)
  have hbuys : dfind t (pap_after_buys snap prices pw).np = dfind t snap.portfolio := by
    rw [show pap_after_buys snap prices pw =
        (pap_buy_reqs snap prices pw).foldl (pap_buy_step (pap_scale snap prices pw))
          { np := snap.portfolio,
            cash := pap_cash_after_sells snap prices pw,
            changes := pap_sell_changes snap prices pw,
            applied := [] } from rfl]
    exact pap_buys_dfind_other _ t _ _ hreqs
  have hunwind : pap_after_unwind snap prices pw =
      ((pap_after_buys snap prices pw).np, (pap_after_buys snap prices pw).cash) := by
    unfold pap_after_unwind
    rw [if_neg]
    intro hc
    exact absurd hcash (not_le.2 hc.1)
  have hpre : pap_pre_correction snap prices pw =
      ((pap_after_buys snap prices pw).np, (pap_after_buys snap prices pw).cash,
       (pap_after_buys snap prices pw).changes) := by
    unfold pap_pre_correction
    rw [hunwind]
    exact if_neg (fun hc => absurd hcash (not_le.2 hc))
  have hporto : (apply_partial_target_weights snap prices pw).1.portfolio =
      (update_snapshot_prices
        { portfolio := (pap_after_buys snap prices pw).np,
          cash := (pap_after_buys snap prices pw).cash } prices).portfolio := by
    unfold apply_partial_target_weights
    rw [hpre]
    exact ite_fst_portfolio rfl rfl
  rw [hporto]
  exact (dfind_map_keyed
    (fun (u : String) (h : Holding) =>
      ({ totalAmount := h.totalAmount, last_price := pget prices u h.last_price,
         entry_price := h.entry_price } : Holding)) t (pap_after_buys snap prices pw).np).trans
    (by rw [hbuys])

/-- Closed witness for C10: holdings `{B: 5 @ 10}`, cash 100, prices
`{A: 1, B: 10}`, target subset `{A}`; cash stays ≥ 0 after the buys and B is
framed. -/
theorem partial_rebalance_frame_witness :
    (0 ≤ (pap_after_buys
        { portfolio := [("B", { totalAmount := 5, last_price := 10, entry_price := 10 })],
          cash := 100 } [("A", 1), ("B", 10)] [("A", 1)]).cash ∧
      "B" ∉ keysOf [(("A" : String), (1 : ℚ))]) ∧
    dfind "B" (apply_partial_target_weights
        { portfolio := [("B", { totalAmount := 5, last_price := 10, entry_price := 10 })],
          cash := 100 } [("A", 1), ("B", 10)] [("A", 1)]).1.portfolio =
      (dfind "B" [("B", { totalAmount := 5, last_price := 10, entry_price := 10 })]).map
        (fun (h : Holding) =>
          ({ totalAmount := h.totalAmount,
             last_price := pget [("A", 1), ("B", 10)] "B" h.last_price,
             entry_price := h.entry_price } : Holding)) := by
  constructor
  · constructor
    · norm_num +decide [pap_after_buys, pap_buy_reqs, pap_scale, pap_total_cost,
        pap_allowable_budget, pap_buy_step, pap_cash_after_sells, pap_sell_changes,
        pap_target_qty, pap_subset_value, update_snapshot_prices, compute_market_value, pget,
        dfind, qtyOf, lastOf, entryOf, dictInsert, pyTrunc, List.filterMap_cons]
    · decide
  · exact partial_rebalance_frame
      { portfolio := [("B", { totalAmount := 5, last_price := 10, entry_price := 10 })],
        cash := 100 } [("A", 1), ("B", 10)] [("A", 1)] "B"
      (by norm_num +decide [pap_after_buys, pap_buy_reqs, pap_scale, pap_total_cost,
        pap_allowable_budget, pap_buy_step, pap_cash_after_sells, pap_sell_changes,
        pap_target_qty, pap_subset_value, update_snapshot_prices, compute_market_value, pget,
        dfind, qtyOf, lastOf, entryOf, dictInsert, pyTrunc, List.filterMap_cons])
      (by decide)

/-- C1 counterexample: snapshot `{A: 9 shares @ 1e-7}`, cash 0, price
`{A: 1e-7}`, partial target `{A: 0}`.  The buggy sell pass credits 9e-7 of
cash without reducing the position, the drift (9e-7) is below the engine's
absolute 1e-6 guard and is not absorbed, and the pre-trade equity is only
9e-7 — so total equity changes by 100% of its pre-trade value, far beyond the
claimed 1e-6 relative bound. -/
theorem relative_drift_counterexample :
    ¬(|equityAt [("A", 1 / 10000000)]
        (apply_partial_target_weights
          { portfolio := [("A", { totalAmount := 9, last_price := 1 / 10000000,
                                  entry_price := 0 })],
            cash := 0 }
          [("A", 1 / 10000000)] [("A", 0)]).1 -
       equityAt [("A", 1 / 10000000)]
        { portfolio := [("A", { totalAmount := 9, last_price := 1 / 10000000,
                                entry_price := 0 })],
          cash := 0 }| ≤
      1 / 1000000 *
        |equityAt [("A", 1 / 10000000)]
          { portfolio := [("A", { totalAmount := 9, last_price := 1 / 10000000,
                                  entry_price := 0 })],
            cash := 0 }|) := by
  norm_num +decide [apply_partial_target_weights, pap_pre_correction, pap_after_buys,
    pap_after_unwind, pap_buy_reqs, pap_scale, pap_total_cost, pap_allowable_budget,
    pap_buy_step, pap_initial_equity, pap_cash_after_sells, pap_sell_changes, pap_target_qty,
    pap_subset_value, update_snapshot_prices, compute_market_value, emergency_sells,
    sell_candidates, equityAt, pval, pget, dfind, qtyOf, lastOf, entryOf, dictInsert, pyTrunc,
    List.filterMap_cons]
  rw [if_neg (show ¬ ((1 : ℚ) / 1000000 < |(9 : ℚ) / 10000000|) from by
    rw [abs_of_nonneg] <;> norm_num)]
  norm_num +decide

/-- C1 (amended): a rebalance does not manufacture value, but the partial
engine's drift guard is absolute, not relative.  `apply_target_weights` over a
full, duplicate-free ticker list covering every held ticker, with aligned
weights, non-negative held quantities and non-negative pre-trade equity,
conserves `cash + Σ qty·price` exactly at the given price map; and for any
input whatsoever `apply_partial_target_weights` changes it by at most 1e-6 in
absolute terms (residual drift beyond 1e-6 is absorbed into cash). -/
theorem rebalance_equity_invariance (snap : Snapshot) (tickers : List String) (prices : Prices)
    (tws : List ℚ) (pw : List (String × ℚ))
    (h1 : tickers.Nodup) (h2 : (keysOf snap.portfolio).Nodup)
    (h3 : ∀ u ∈ keysOf snap.portfolio, u ∈ tickers)
    (h4 : tws.length = tickers.length)
    (h5 : ∀ e ∈ snap.portfolio, 0 ≤ e.2.totalAmount)
    (h6 : 0 ≤ equityAt prices snap) :
    equityAt prices (apply_target_weights snap tickers prices tws).1 = equityAt prices snap ∧
    |equityAt prices (apply_partial_target_weights snap prices pw).1 - equityAt prices snap|
      ≤ 1 / 1000000 := by
  refine ⟨?_, pap_equity_abs_bound snap prices pw⟩
  have hte : 0 ≤ compute_market_value (update_snapshot_prices
      { portfolio := snap.portfolio, cash := snap.cash } prices) + snap.cash := by
    rw [compute_market_value_update]
    unfold equityAt at h6
    linarith
  have hlen : tickers.length ≤ (tws.map (fun w => max 0 w *
      (compute_market_value (update_snapshot_prices
        { portfolio := snap.portfolio, cash := snap.cash } prices) + snap.cash))).length := by
    rw [List.length_map, h4]
  have hmapfst : (tickers.zip (tws.map (fun w => max 0 w *
      (compute_market_value (update_snapshot_prices
        { portfolio := snap.portfolio, cash := snap.cash } prices) + snap.cash)))).map
      Prod.fst = tickers :=
    List.map_fst_zip _ _ hlen
  have hassem := atw_assembled prices snap.portfolio snap.cash
    (tickers.zip (tws.map (fun w => max 0 w *
      (compute_market_value (update_snapshot_prices
        { portfolio := snap.portfolio, cash := snap.cash } prices) + snap.cash))))
    (by rw [hmapfst]; exact h1)
    (by
      intro p hp
      have hsnd := (List.of_mem_zip hp).2
      obtain ⟨w, _, hw⟩ := List.mem_map.1 hsnd
      rw [← hw]
      exact mul_nonneg (le_max_left 0 w) hte)
    h5 h2
    (by rw [hmapfst]; exact h3)
  have hform := equityAt_update prices
    { portfolio := snap.portfolio.foldl (fun acc e =>
        if e.1 ∉ keysOf acc ∧ dfind e.1 prices = none then dictInsert e.1 e.2 acc else acc)
        ((tickers.zip (tws.map (fun w => max 0 w *
          (compute_market_value (update_snapshot_prices
            { portfolio := snap.portfolio, cash := snap.cash } prices) + snap.cash)))).foldl
          (atw_step snap.portfolio prices) { np := [], cash := snap.cash, changes := [] }).np,
      cash := ((tickers.zip (tws.map (fun w => max 0 w *
          (compute_market_value (update_snapshot_prices
            { portfolio := snap.portfolio, cash := snap.cash } prices) + snap.cash)))).foldl
          (atw_step snap.portfolio prices) { np := [], cash := snap.cash, changes := [] }).cash }
  calc equityAt prices (apply_target_weights snap tickers prices tws).1
      = _ := hform
    _ = snap.cash + pval prices snap.portfolio := hassem
    _ = equityAt prices snap := rfl

/-- Closed witness for C1's amended theorem: snapshot `{A: 2 @ 3, entry 1}`,
cash 50, price `{A: 4}`, full weights `[1/2]`, partial weights `{A: 1/2}`. -/
theorem rebalance_equity_invariance_witness :
    (["A"].Nodup ∧
     (keysOf [("A", ({ totalAmount := 2, last_price := 3, entry_price := 1 } : Holding))]).Nodup ∧
     (∀ u ∈ keysOf [("A", ({ totalAmount := 2, last_price := 3, entry_price := 1 } : Holding))],
        u ∈ ["A"]) ∧
     [(1 : ℚ) / 2].length = ["A"].length ∧
     (∀ e ∈ [("A", ({ totalAmount := 2, last_price := 3, entry_price := 1 } : Holding))],
        0 ≤ e.2.totalAmount) ∧
     0 ≤ equityAt [("A", 4)]
        { portfolio := [("A", { totalAmount := 2, last_price := 3, entry_price := 1 })],
          cash := 50 }) ∧
    (equityAt [("A", 4)] (apply_target_weights
        { portfolio := [("A", { totalAmount := 2, last_price := 3, entry_price := 1 })],
          cash := 50 } ["A"] [("A", 4)] [1 / 2]).1 =
      equityAt [("A", 4)]
        { portfolio := [("A", { totalAmount := 2, last_price := 3, entry_price := 1 })],
          cash := 50 } ∧
     |equityAt [("A", 4)] (apply_partial_target_weights
        { portfolio := [("A", { totalAmount := 2, last_price := 3, entry_price := 1 })],
          cash := 50 } [("A", 4)] [("A", 1 / 2)]).1 -
       equityAt [("A", 4)]
        { portfolio := [("A", { totalAmount := 2, last_price := 3, entry_price := 1 })],
          cash := 50 }| ≤ 1 / 1000000) := by
  constructor
  · refine ⟨by decide, by decide, by decide, by decide, by decide, ?_⟩
    norm_num [equityAt, pval, pget, dfind]
  · exact rebalance_equity_invariance
      { portfolio := [("A", { totalAmount := 2, last_price := 3, entry_price := 1 })],
        cash := 50 } ["A"] [("A", 4)] [1 / 2] [("A", 1 / 2)]
      (by decide) (by decide) (by decide) (by decide) (by decide)
      (by norm_num [equityAt, pval, pget, dfind])

end HedgeFund
